import Mathlib

set_option maxRecDepth 8000000

/-!
Shallow embedding of the Binarizationlab image-binarization core
(`src/utils/binarizationAlgorithms.ts`) and proofs about it.

Modelling conventions:
* JavaScript numbers are modelled by `JSNum`: an exact rational together
  with the IEEE-754 special values `NaN`, `+Infinity`, `-Infinity` that JS
  arithmetic can produce (0/0, x/0, sqrt of a negative, ...).  The rational
  payload is an unnormalized fraction `Frac` (integer numerator, positive
  denominator) so that every operation is kernel-computable; `Frac.toRat`
  interprets it in `ℚ`.  Signed zero is not modelled (the repository never
  divides a nonzero number by a zero that could be negative).
* `Math.sqrt` is real-valued and irrational in general, which no exact
  computable type can represent.  `Frac.fsqrt` returns the exact square
  root whenever the argument's `numerator * denominator` is a perfect
  square (this covers every value at which a claim below inspects a square
  root, in particular 0 and squares of window means) and the rational
  `⌊√(n*d)⌋ / d` otherwise; `jsqrt` maps negative arguments to NaN exactly
  as `Math.sqrt` does.
* `Uint8ClampedArray` stores (ToUint8Clamp): clamp to [0,255], round to
  nearest with ties to even; NaN stores as 0.
* Image buffers are `List ℕ` of byte samples; out-of-range typed-array
  reads yield `undefined`, which arithmetic turns into NaN (`byteGet`
  returns `JSNum.nan` out of range); out-of-range writes are ignored.
-/

/-- Fuel-based digit-recursive integer square root (structural recursion so
that the kernel can evaluate it; `Nat.sqrt`'s well-founded recursion cannot
be reduced by `decide`). -/
def isqrtAux : ℕ → ℕ → ℕ
  | 0, _ => 0
  | f + 1, n =>
    if n = 0 then 0
    else if (2 * isqrtAux f (n / 4) + 1) * (2 * isqrtAux f (n / 4) + 1) ≤ n
    then 2 * isqrtAux f (n / 4) + 1
    else 2 * isqrtAux f (n / 4)

/-- Integer square root: largest `r` with `r*r ≤ n`. -/
def isqrt (n : ℕ) : ℕ := isqrtAux n n

theorem isqrtAux_bounds (f : ℕ) : ∀ n : ℕ, n ≤ f →
    isqrtAux f n * isqrtAux f n ≤ n ∧ n < (isqrtAux f n + 1) * (isqrtAux f n + 1) := by
  induction f with
  | zero =>
    intro n hn
    have h0 : n = 0 := Nat.le_zero.mp hn
    subst h0
    simp [isqrtAux]
  | succ f ih =>
    intro n hn
    by_cases h0 : n = 0
    · subst h0; simp [isqrtAux]
    · have hrec : n / 4 ≤ f := by
        have h1 : 1 ≤ n := Nat.one_le_iff_ne_zero.mpr h0
        have : n / 4 < n := Nat.div_lt_self h1 (by norm_num)
        omega
      obtain ⟨hlo, hhi⟩ := ih (n / 4) hrec
      have hlo4 : (2 * isqrtAux f (n / 4)) * (2 * isqrtAux f (n / 4)) ≤ n := by
        have h3 : 4 * (isqrtAux f (n / 4) * isqrtAux f (n / 4)) ≤ 4 * (n / 4) :=
          Nat.mul_le_mul_left 4 hlo
        have h4 : 4 * (n / 4) ≤ n := Nat.mul_div_le n 4
        calc (2 * isqrtAux f (n / 4)) * (2 * isqrtAux f (n / 4))
            = 4 * (isqrtAux f (n / 4) * isqrtAux f (n / 4)) := by ring
          _ ≤ 4 * (n / 4) := h3
          _ ≤ n := h4
      have hhi4 : n < (2 * isqrtAux f (n / 4) + 2) * (2 * isqrtAux f (n / 4) + 2) := by
        have h1 : n / 4 + 1 ≤ (isqrtAux f (n / 4) + 1) * (isqrtAux f (n / 4) + 1) := hhi
        have h2 : n < 4 * (n / 4 + 1) := by omega
        calc n < 4 * (n / 4 + 1) := h2
          _ ≤ 4 * ((isqrtAux f (n / 4) + 1) * (isqrtAux f (n / 4) + 1)) :=
              Nat.mul_le_mul_left 4 h1
          _ = (2 * isqrtAux f (n / 4) + 2) * (2 * isqrtAux f (n / 4) + 2) := by ring
      by_cases hc : (2 * isqrtAux f (n / 4) + 1) * (2 * isqrtAux f (n / 4) + 1) ≤ n
      · have hEq : isqrtAux (f + 1) n = 2 * isqrtAux f (n / 4) + 1 := by
          simp only [isqrtAux, h0, if_false, hc, if_true]
        rw [hEq]
        exact ⟨hc, by nlinarith [hhi4]⟩
      · have hEq : isqrtAux (f + 1) n = 2 * isqrtAux f (n / 4) := by
          simp only [isqrtAux, h0, if_false, hc, if_false]
        rw [hEq]
        exact ⟨hlo4, by nlinarith [hc]⟩

theorem isqrt_bounds (n : ℕ) : isqrt n * isqrt n ≤ n ∧ n < (isqrt n + 1) * (isqrt n + 1) :=
  isqrtAux_bounds n n le_rfl

/-- `isqrt` is exact on perfect squares. -/
theorem isqrt_sq (m : ℕ) : isqrt (m * m) = m := by
  obtain ⟨h1, h2⟩ := isqrt_bounds (m * m)
  nlinarith [h1, h2]

/-- Unnormalized rational: numerator `n`, denominator `dp + 1` (always
positive by construction). -/
structure Frac where
  n : Int
  dp : ℕ
deriving DecidableEq, Repr

namespace Frac

/-- The (positive) denominator. -/
def den (f : Frac) : ℕ := f.dp + 1

/-- Interpretation into `ℚ`. -/
def toRat (f : Frac) : ℚ := (f.n : ℚ) / (f.den : ℚ)

theorem den_pos (f : Frac) : 0 < f.den := Nat.succ_pos _

theorem den_cast_pos (f : Frac) : (0 : ℚ) < (f.den : ℚ) := by
  exact_mod_cast f.den_pos

theorem den_cast_ne (f : Frac) : ((f.den : ℚ)) ≠ 0 := ne_of_gt f.den_cast_pos

/-- Embed a natural number. -/
def ofNat (v : ℕ) : Frac := ⟨v, 0⟩

/-- Embed an integer. -/
def ofInt (v : Int) : Frac := ⟨v, 0⟩

def fadd (a b : Frac) : Frac := ⟨a.n * b.den + b.n * a.den, a.den * b.den - 1⟩

def fneg (a : Frac) : Frac := ⟨-a.n, a.dp⟩

def fsub (a b : Frac) : Frac := fadd a (fneg b)

def fmul (a b : Frac) : Frac := ⟨a.n * b.n, a.den * b.den - 1⟩

/-- Division, meaningful only when `b.n ≠ 0` (the zero-denominator cases are
dispatched to NaN/±∞ at the `JSNum` level before calling this). -/
def fdiv (a b : Frac) : Frac :=
  if 0 ≤ b.n then ⟨a.n * b.den, a.den * b.n.toNat - 1⟩
  else ⟨-(a.n * b.den), a.den * (-b.n).toNat - 1⟩

/-- `√(n/d) = √(n·d)/d`; exact when `n·d` is a perfect square. -/
def fsqrt (a : Frac) : Frac := ⟨(isqrt (a.n.toNat * a.den) : Int), a.dp⟩

/-- Strict comparison by cross-multiplication (sound because denominators
are positive by construction). -/
def fltb (a b : Frac) : Bool := a.n * b.den < b.n * a.den

theorem den_fadd (a b : Frac) : (fadd a b).den = a.den * b.den := by
  have h : 0 < a.den * b.den := Nat.mul_pos a.den_pos b.den_pos
  show a.den * b.den - 1 + 1 = a.den * b.den
  exact Nat.sub_add_cancel h

theorem den_fmul (a b : Frac) : (fmul a b).den = a.den * b.den := by
  have h : 0 < a.den * b.den := Nat.mul_pos a.den_pos b.den_pos
  show a.den * b.den - 1 + 1 = a.den * b.den
  exact Nat.sub_add_cancel h

theorem toRat_ofNat (v : ℕ) : (ofNat v).toRat = (v : ℚ) := by
  simp [ofNat, toRat, den]

theorem toRat_ofInt (v : Int) : (ofInt v).toRat = (v : ℚ) := by
  simp [ofInt, toRat, den]

theorem toRat_fadd (a b : Frac) : (fadd a b).toRat = a.toRat + b.toRat := by
  have hd : ((fadd a b).den : ℚ) = (a.den : ℚ) * (b.den : ℚ) := by
    rw [den_fadd]; push_cast; ring
  have ha := a.den_cast_ne
  have hb := b.den_cast_ne
  unfold toRat
  rw [hd]
  show ((a.n * b.den + b.n * a.den : Int) : ℚ) / _ = _
  field_simp
  try push_cast
  try ring

theorem toRat_fneg (a : Frac) : (fneg a).toRat = -a.toRat := by
  simp [fneg, toRat, den, neg_div]

theorem toRat_fsub (a b : Frac) : (fsub a b).toRat = a.toRat - b.toRat := by
  rw [fsub, toRat_fadd, toRat_fneg, sub_eq_add_neg]

theorem toRat_fmul (a b : Frac) : (fmul a b).toRat = a.toRat * b.toRat := by
  have hd : ((fmul a b).den : ℚ) = (a.den : ℚ) * (b.den : ℚ) := by
    rw [den_fmul]; push_cast; ring
  have ha := a.den_cast_ne
  have hb := b.den_cast_ne
  unfold toRat
  rw [hd]
  show ((a.n * b.n : Int) : ℚ) / _ = _
  rw [div_mul_eq_div_div]
  push_cast
  ring

theorem toRat_fdiv (a b : Frac) (hb : b.n ≠ 0) : (fdiv a b).toRat = a.toRat / b.toRat := by
  unfold fdiv
  by_cases h : 0 ≤ b.n
  · have hbpos : 0 < b.n := lt_of_le_of_ne h (Ne.symm hb)
    have htn : ((b.n.toNat : ℕ) : ℚ) = ((b.n : Int) : ℚ) := by
      exact_mod_cast congrArg (fun z : Int => (z : ℚ)) (Int.toNat_of_nonneg h)
    have hpos : 0 < a.den * b.n.toNat := by
      have h1 := a.den_pos
      have h2 : 0 < b.n.toNat := by omega
      exact Nat.mul_pos h1 h2
    have hden : (⟨a.n * b.den, a.den * b.n.toNat - 1⟩ : Frac).den = a.den * b.n.toNat := by
      show a.den * b.n.toNat - 1 + 1 = a.den * b.n.toNat
      exact Nat.sub_add_cancel hpos
    simp only [h, if_true]
    unfold toRat
    rw [hden]
    show ((a.n * b.den : Int) : ℚ) / _ = _
    have hne : ((b.n : ℚ)) ≠ 0 := by exact_mod_cast hb
    have ha := a.den_cast_ne
    push_cast
    rw [htn]
    field_simp
    try ring
  · have hbneg : b.n < 0 := by omega
    have htn : (((-b.n).toNat : ℕ) : ℚ) = ((-b.n : Int) : ℚ) := by
      exact_mod_cast congrArg (fun z : Int => (z : ℚ)) (Int.toNat_of_nonneg (by omega : (0:Int) ≤ -b.n))
    have hpos : 0 < a.den * (-b.n).toNat := by
      have h1 := a.den_pos
      have h2 : 0 < (-b.n).toNat := by omega
      exact Nat.mul_pos h1 h2
    have hden : (⟨-(a.n * b.den), a.den * (-b.n).toNat - 1⟩ : Frac).den = a.den * (-b.n).toNat := by
      show a.den * (-b.n).toNat - 1 + 1 = a.den * (-b.n).toNat
      exact Nat.sub_add_cancel hpos
    simp only [h, if_false]
    unfold toRat
    rw [hden]
    show ((-(a.n * b.den) : Int) : ℚ) / _ = _
    have hne : ((b.n : ℚ)) ≠ 0 := by exact_mod_cast hb
    have ha := a.den_cast_ne
    push_cast
    rw [htn]
    push_cast
    field_simp
    try ring

theorem fltb_iff (a b : Frac) : fltb a b = true ↔ a.toRat < b.toRat := by
  unfold fltb toRat
  rw [decide_eq_true_iff]
  rw [div_lt_div_iff₀ a.den_cast_pos b.den_cast_pos]
  constructor
  · intro h; exact_mod_cast h
  · intro h; exact_mod_cast h

theorem toRat_fsqrt_zero (a : Frac) (h : a.n = 0) : (fsqrt a).toRat = 0 := by
  have h2 : a.n.toNat * a.den = 0 := by simp [h]
  simp [fsqrt, toRat, h2, isqrt, isqrtAux]

end Frac

/-- A JavaScript number: an exact rational (`num`), or one of the IEEE-754
special values NaN, `+Infinity`, `-Infinity`. -/
inductive JSNum where
  | num (f : Frac)
  | nan
  | pinf
  | ninf
deriving DecidableEq, Repr

namespace JSNum

/-- Embed a natural number. -/
def ofNat (v : ℕ) : JSNum := num (Frac.ofNat v)

/-- JS addition. -/
def jadd : JSNum → JSNum → JSNum
  | num a, num b => num (Frac.fadd a b)
  | nan, _ => nan
  | _, nan => nan
  | pinf, ninf => nan
  | ninf, pinf => nan
  | pinf, _ => pinf
  | _, pinf => pinf
  | ninf, _ => ninf
  | _, ninf => ninf

/-- JS negation. -/
def jneg : JSNum → JSNum
  | num a => num (Frac.fneg a)
  | nan => nan
  | pinf => ninf
  | ninf => pinf

/-- JS subtraction (`a - b = a + (-b)` in IEEE-754). -/
def jsub (a b : JSNum) : JSNum := jadd a (jneg b)

/-- JS multiplication. -/
def jmul : JSNum → JSNum → JSNum
  | num a, num b => num (Frac.fmul a b)
  | nan, _ => nan
  | _, nan => nan
  | pinf, pinf => pinf
  | pinf, ninf => ninf
  | ninf, pinf => ninf
  | ninf, ninf => pinf
  | pinf, num b => if b.n = 0 then nan else if 0 < b.n then pinf else ninf
  | num a, pinf => if a.n = 0 then nan else if 0 < a.n then pinf else ninf
  | ninf, num b => if b.n = 0 then nan else if 0 < b.n then ninf else pinf
  | num a, ninf => if a.n = 0 then nan else if 0 < a.n then ninf else pinf

/-- JS division.  `0/0 = NaN`, `x/0 = ±Infinity` for `x ≠ 0` (signed zero is
not modelled: the denominator zero is treated as `+0`). -/
def jdiv : JSNum → JSNum → JSNum
  | num a, num b =>
    if b.n = 0 then
      if a.n = 0 then nan else if 0 < a.n then pinf else ninf
    else num (Frac.fdiv a b)
  | nan, _ => nan
  | _, nan => nan
  | pinf, pinf => nan
  | pinf, ninf => nan
  | ninf, pinf => nan
  | ninf, ninf => nan
  | num _, pinf => num (Frac.ofNat 0)
  | num _, ninf => num (Frac.ofNat 0)
  | pinf, num b => if 0 ≤ b.n then pinf else ninf
  | ninf, num b => if 0 ≤ b.n then ninf else pinf

/-- `Math.sqrt`: NaN on negative arguments (and on NaN / `-Infinity`). -/
def jsqrt : JSNum → JSNum
  | num a => if a.n < 0 then nan else num (Frac.fsqrt a)
  | nan => nan
  | pinf => pinf
  | ninf => nan

/-- `Math.max` (NaN-propagating, as in JS). -/
def jmax : JSNum → JSNum → JSNum
  | num a, num b => if Frac.fltb a b then num b else num a
  | nan, _ => nan
  | _, nan => nan
  | pinf, _ => pinf
  | _, pinf => pinf
  | ninf, b => b
  | a, ninf => a

/-- `Math.min` (NaN-propagating, as in JS). -/
def jmin : JSNum → JSNum → JSNum
  | num a, num b => if Frac.fltb b a then num b else num a
  | nan, _ => nan
  | _, nan => nan
  | ninf, _ => ninf
  | _, ninf => ninf
  | pinf, b => b
  | a, pinf => a

/-- JS strict `a > b`; `false` whenever either side is NaN. -/
def jgtb : JSNum → JSNum → Bool
  | nan, _ => false
  | _, nan => false
  | pinf, pinf => false
  | pinf, _ => true
  | _, pinf => false
  | ninf, ninf => false
  | ninf, _ => false
  | _, ninf => true
  | num a, num b => Frac.fltb b a

theorem jadd_num (a b : Frac) : jadd (num a) (num b) = num (Frac.fadd a b) := rfl

theorem jmul_num (a b : Frac) : jmul (num a) (num b) = num (Frac.fmul a b) := rfl

theorem jsub_num (a b : Frac) : jsub (num a) (num b) = num (Frac.fsub a b) := rfl

theorem jdiv_num (a b : Frac) (hb : b.n ≠ 0) :
    jdiv (num a) (num b) = num (Frac.fdiv a b) := by
  simp [jdiv, hb]

theorem jmul_nan_right (a : JSNum) : jmul a nan = nan := by
  cases a <;> rfl

theorem jmul_nan_left (a : JSNum) : jmul nan a = nan := by
  cases a <;> rfl

theorem jadd_nan_right (a : JSNum) : jadd a nan = nan := by
  cases a <;> rfl

theorem jadd_nan_left (a : JSNum) : jadd nan a = nan := by
  cases a <;> rfl

theorem jsub_nan_right (a : JSNum) : jsub a nan = nan := jadd_nan_right a

theorem jsub_nan_left (a : JSNum) : jsub nan a = nan := by
  cases a <;> rfl

theorem jgtb_nan_right (a : JSNum) : jgtb a nan = false := by
  cases a <;> rfl

end JSNum

/-- Input raster (`ImageData`): width, height, RGBA byte samples.  A
well-formed platform `ImageData` has `data.length = 4*width*height`; the
structure itself does not enforce this, so malformed buffers can be
expressed (the algorithms perform no validation of their own). -/
structure ImageDataIn where
  width : ℕ
  height : ℕ
  data : List ℕ
deriving DecidableEq, Repr

/-- Output raster (`ImageData` produced by `new ImageData(w, h)` and then
filled): width, height, RGBA byte samples. -/
structure ImageDataOut where
  width : ℕ
  height : ℕ
  data : List ℕ
deriving DecidableEq, Repr

/-- Typed-array element read: in-range gives the byte, out-of-range gives
`undefined`, which subsequent arithmetic turns into NaN. -/
def byteGet (l : List ℕ) (i : ℕ) : JSNum :=
  match l.get? i with
  | some v => JSNum.ofNat v
  | none => JSNum.nan

/-- `ToUint8Clamp` (the `Uint8ClampedArray` store conversion): clamp to
[0,255] and round to nearest, ties to even; NaN stores as 0. -/
def clampRoundByte : JSNum → ℕ
  | JSNum.nan => 0
  | JSNum.ninf => 0
  | JSNum.pinf => 255
  | JSNum.num f =>
    if f.n ≤ 0 then 0
    else
      let q := f.n.toNat / f.den
      let r := f.n.toNat % f.den
      let rounded :=
        if 2 * r < f.den then q
        else if f.den < 2 * r then q + 1
        else if q % 2 = 0 then q else q + 1
      min 255 rounded

/-- Luminance of pixel `p` of the RGBA buffer `d`:
`0.299*R + 0.587*G + 0.114*B` (left-associated, as in the source). -/
def lumAt (d : List ℕ) (p : ℕ) : JSNum :=
  JSNum.jadd
    (JSNum.jadd (JSNum.jmul (JSNum.num ⟨299, 999⟩) (byteGet d (4 * p)))
                (JSNum.jmul (JSNum.num ⟨587, 999⟩) (byteGet d (4 * p + 1))))
    (JSNum.jmul (JSNum.num ⟨114, 999⟩) (byteGet d (4 * p + 2)))

/-- `toGrayscale`: a `width*height` `Uint8ClampedArray`, entry `p` written
by loop iteration `i = 4*p` when `4*p < data.length` (iterations with
`i/4 ≥ width*height` write out of range and are ignored; entries never
written stay at the 0 the typed array is initialized with).  Alpha
(`data[i+3]`) is never read. -/
def toGrayscale (img : ImageDataIn) : List ℕ :=
  (List.range (img.width * img.height)).map fun p =>
    if 4 * p < img.data.length then clampRoundByte (lumAt img.data p) else 0

/-- `applyThreshold` with a single number threshold (the only form the
repository calls: Otsu; the `number[]` overload branch is never exercised).
`new ImageData(w,h)` starts all-zero; loop index `i` ranges over the
grayscale length, writing `[v,v,v,255]` at `4*i`. -/
def applyThreshold (gray : List ℕ) (t : JSNum) (w h : ℕ) : ImageDataOut :=
  ⟨w, h,
    ((List.range (w * h)).map fun i =>
      if i < gray.length then
        let v := if JSNum.jgtb (JSNum.ofNat (gray.getD i 0)) t then 255 else 0
        [v, v, v, 255]
      else [0, 0, 0, 0]).flatten⟩

/-- `windowSize = max(3, ceil(min(width,height)/30))`; `(m + 29) / 30` is
`⌈m/30⌉` in natural-number arithmetic. -/
def windowSize (w h : ℕ) : ℕ := max 3 ((min w h + 29) / 30)

/-- The index list of the clamped local window around `(x, y)`:
`startX = max(0, x-half)` (natural subtraction), `endX = min(w-1, x+half)`,
rows `startY..endY`, columns `startX..endX`, linear index `wy*w + wx`. -/
def windowIdx (x y w h win : ℕ) : List ℕ :=
  let half := win / 2
  let startX := x - half
  let endX := min (w - 1) (x + half)
  let startY := y - half
  let endY := min (h - 1) (y + half)
  ((List.range' startY (endY + 1 - startY)).map fun wy =>
    (List.range' startX (endX + 1 - startX)).map fun wx => wy * w + wx).flatten

/-- Local statistics record. -/
structure LocalStats where
  mean : JSNum
  variance : JSNum
  stdDev : JSNum
deriving DecidableEq, Repr

/-- `calculateLocalStats`: sum and squared sum over the clamped window,
`mean = sum/count`, `variance = squaredSum/count - mean*mean`,
`stdDev = sqrt(variance)`.  (Niblack and Sauvola textually inline the same
loop; the statistics they compute are this function's body verbatim.) -/
def calculateLocalStats (gray : List ℕ) (x y w h win : ℕ) : LocalStats :=
  let idx := windowIdx x y w h win
  let sum := idx.foldl (fun a i => JSNum.jadd a (byteGet gray i)) (JSNum.ofNat 0)
  let squaredSum :=
    idx.foldl (fun a i => JSNum.jadd a (JSNum.jmul (byteGet gray i) (byteGet gray i)))
      (JSNum.ofNat 0)
  let count := idx.length
  let mean := JSNum.jdiv sum (JSNum.ofNat count)
  let variance := JSNum.jsub (JSNum.jdiv squaredSum (JSNum.ofNat count)) (JSNum.jmul mean mean)
  ⟨mean, variance, JSNum.jsqrt variance⟩

/-- Shared output assembly of the seven per-pixel algorithms: the `y`/`x`
loops write `[v,v,v,255]` at `4*(y*width+x)` with `v = 255` iff the
pixel's decision is foreground. -/
def renderPixels (w h : ℕ) (f : ℕ → ℕ → Bool) : ImageDataOut :=
  ⟨w, h,
    ((List.range h).map fun y =>
      ((List.range w).map fun x =>
        let v := if f x y then 255 else 0
        [v, v, v, 255]).flatten).flatten⟩

/-- Otsu histogram: bin `t` counts the grayscale samples equal to `t`
(samples are integral bytes, so `Math.round` is the identity on them). -/
def histogramOf (gray : List ℕ) : ℕ → ℕ := fun t => gray.count t

/-- The running state of Otsu's 256-iteration threshold search. -/
structure OtsuState where
  sumB : ℕ
  wB : ℕ
  maxVar : Frac
  thr : ℕ
  done : Bool
deriving DecidableEq, Repr

/-- One iteration of Otsu's loop.  `done` records that the `wF == 0` break
fired (subsequent iterations are the identity).  `continue` on `wB == 0`
skips the rest of the body. -/
def otsuStep (hist : ℕ → ℕ) (total sum : ℕ) (s : OtsuState) (t : ℕ) : OtsuState :=
  if s.done then s
  else
    let wB := s.wB + hist t
    if wB = 0 then { s with wB := wB }
    else
      let wF := total - wB
      if wF = 0 then { s with wB := wB, done := true }
      else
        let sumB := s.sumB + t * hist t
        let mB := Frac.fdiv (Frac.ofNat sumB) (Frac.ofNat wB)
        let mF := Frac.fdiv (Frac.ofInt ((sum : Int) - (sumB : Int))) (Frac.ofNat wF)
        let v := Frac.fmul (Frac.fmul (Frac.fmul (Frac.ofNat wB) (Frac.ofNat wF))
                   (Frac.fsub mB mF)) (Frac.fsub mB mF)
        if Frac.fltb s.maxVar v then
          { sumB := sumB, wB := wB, maxVar := v, thr := t, done := false }
        else { s with sumB := sumB, wB := wB }

/-- The scan `for t in 0..255` starting from
`sumB = wB = 0, maxVariance = 0, threshold = 0`. -/
def otsuScan (hist : ℕ → ℕ) (total sum : ℕ) : OtsuState :=
  (List.range 256).foldl (otsuStep hist total sum) ⟨0, 0, Frac.ofNat 0, 0, false⟩

/-- Otsu's selected threshold for a grayscale buffer:
`total = grayscale.length`, `sum = Σ t·hist[t]`. -/
def otsuComputeThreshold (gray : List ℕ) : ℕ :=
  let hist := histogramOf gray
  let total := gray.length
  let sum := (List.range 256).foldl (fun acc t => acc + t * hist t) 0
  (otsuScan hist total sum).thr

/-- `otsuThreshold` entry point. -/
def otsuThreshold (img : ImageDataIn) : ImageDataOut :=
  let gray := toGrayscale img
  applyThreshold gray (JSNum.ofNat (otsuComputeThreshold gray)) img.width img.height

/-- Niblack per-pixel decision: `T = mean + k*stdDev`, foreground iff
`gray[y*w+x] > T`. -/
def niblackDecision (gray : List ℕ) (w h : ℕ) (k : Frac) (x y : ℕ) : Bool :=
  let s := calculateLocalStats gray x y w h (windowSize w h)
  let threshold := JSNum.jadd s.mean (JSNum.jmul (JSNum.num k) s.stdDev)
  JSNum.jgtb (byteGet gray (y * w + x)) threshold

/-- `niblackThreshold` (default `k = -0.2`). -/
def niblackThreshold (img : ImageDataIn) (k : Frac) : ImageDataOut :=
  let gray := toGrayscale img
  renderPixels img.width img.height (niblackDecision gray img.width img.height k)

/-- Sauvola per-pixel decision: `T = mean * (1 + k*(stdDev/R - 1))`,
`R = 128`. -/
def sauvolaDecision (gray : List ℕ) (w h : ℕ) (k : Frac) (x y : ℕ) : Bool :=
  let s := calculateLocalStats gray x y w h (windowSize w h)
  let threshold := JSNum.jmul s.mean
    (JSNum.jadd (JSNum.ofNat 1)
      (JSNum.jmul (JSNum.num k)
        (JSNum.jsub (JSNum.jdiv s.stdDev (JSNum.ofNat 128)) (JSNum.ofNat 1))))
  JSNum.jgtb (byteGet gray (y * w + x)) threshold

/-- `sauvolaThreshold` (default `k = 0.5`). -/
def sauvolaThreshold (img : ImageDataIn) (k : Frac) : ImageDataOut :=
  let gray := toGrayscale img
  renderPixels img.width img.height (sauvolaDecision gray img.width img.height k)

/-- Wolf first pass: `minVal` starts at 255 and takes `Math.min` with every
pixel; `maxStdDev` starts at 0 and takes `Math.max` with every local
standard deviation. -/
def wolfPre (gray : List ℕ) (w h win : ℕ) : JSNum × JSNum :=
  (List.range h).foldl
    (fun acc y =>
      (List.range w).foldl
        (fun acc x =>
          let pixel := byteGet gray (y * w + x)
          let s := calculateLocalStats gray x y w h win
          (JSNum.jmin acc.1 pixel, JSNum.jmax acc.2 s.stdDev))
        acc)
    (JSNum.ofNat 255, JSNum.ofNat 0)

/-- Wolf per-pixel threshold:
`T = mean - k * (1 - stdDev/maxStdDev) * (mean - minVal)`
(left-associated products, as in the source). -/
def wolfThresholdAt (gray : List ℕ) (w h win : ℕ) (k : Frac) (minVal maxStdDev : JSNum)
    (x y : ℕ) : JSNum :=
  let s := calculateLocalStats gray x y w h win
  JSNum.jsub s.mean
    (JSNum.jmul
      (JSNum.jmul (JSNum.num k)
        (JSNum.jsub (JSNum.ofNat 1) (JSNum.jdiv s.stdDev maxStdDev)))
      (JSNum.jsub s.mean minVal))

/-- Wolf per-pixel decision. -/
def wolfDecision (gray : List ℕ) (w h win : ℕ) (k : Frac) (minVal maxStdDev : JSNum)
    (x y : ℕ) : Bool :=
  JSNum.jgtb (byteGet gray (y * w + x)) (wolfThresholdAt gray w h win k minVal maxStdDev x y)

/-- `wolfThreshold` (default `k = 0.5`): global pre-pass, then per-pixel
thresholding. -/
def wolfThreshold (img : ImageDataIn) (k : Frac) : ImageDataOut :=
  let gray := toGrayscale img
  let win := windowSize img.width img.height
  let pre := wolfPre gray img.width img.height win
  renderPixels img.width img.height
    (wolfDecision gray img.width img.height win k pre.1 pre.2)

/-- NICK per-pixel decision: `T = mean + k * sqrt(variance + mean*mean)`. -/
def nickDecision (gray : List ℕ) (w h : ℕ) (k : Frac) (x y : ℕ) : Bool :=
  let s := calculateLocalStats gray x y w h (windowSize w h)
  let threshold := JSNum.jadd s.mean
    (JSNum.jmul (JSNum.num k)
      (JSNum.jsqrt (JSNum.jadd s.variance (JSNum.jmul s.mean s.mean))))
  JSNum.jgtb (byteGet gray (y * w + x)) threshold

/-- `nickThreshold` (default `k = -0.2`). -/
def nickThreshold (img : ImageDataIn) (k : Frac) : ImageDataOut :=
  let gray := toGrayscale img
  renderPixels img.width img.height (nickDecision gray img.width img.height k)

/-- T.R. Singh per-pixel decision: `T = mean * (1 + p*(stdDev/R - 1))`,
`R = 128`. -/
def trSinghDecision (gray : List ℕ) (w h : ℕ) (p : Frac) (x y : ℕ) : Bool :=
  let s := calculateLocalStats gray x y w h (windowSize w h)
  let threshold := JSNum.jmul s.mean
    (JSNum.jadd (JSNum.ofNat 1)
      (JSNum.jmul (JSNum.num p)
        (JSNum.jsub (JSNum.jdiv s.stdDev (JSNum.ofNat 128)) (JSNum.ofNat 1))))
  JSNum.jgtb (byteGet gray (y * w + x)) threshold

/-- `trSinghThreshold` (default `p = 0.5`). -/
def trSinghThreshold (img : ImageDataIn) (p : Frac) : ImageDataOut :=
  let gray := toGrayscale img
  renderPixels img.width img.height (trSinghDecision gray img.width img.height p)

/-- ISauvola global pass: `globalMean = (Σ g)/count`,
`globalStdDev = sqrt((Σ g²)/count - globalMean²)`, `count = length`. -/
def iSauvolaGlobal (gray : List ℕ) : JSNum × JSNum :=
  let sumv := gray.foldl (fun a v => JSNum.jadd a (JSNum.ofNat v)) (JSNum.ofNat 0)
  let sumsq := gray.foldl
    (fun a v => JSNum.jadd a (JSNum.jmul (JSNum.ofNat v) (JSNum.ofNat v))) (JSNum.ofNat 0)
  let count := gray.length
  let gm := JSNum.jdiv sumv (JSNum.ofNat count)
  (gm, JSNum.jsqrt (JSNum.jsub (JSNum.jdiv sumsq (JSNum.ofNat count)) (JSNum.jmul gm gm)))

/-- ISauvola per-pixel decision:
`alpha = max(0, min(1, stdDev/globalStdDev))`, `dynamicK = k*(1-alpha)`,
`T = mean * (1 + dynamicK*(stdDev/R - 1))`, `R = 128`. -/
def iSauvolaDecision (gray : List ℕ) (w h : ℕ) (k : Frac) (globalStdDev : JSNum)
    (x y : ℕ) : Bool :=
  let s := calculateLocalStats gray x y w h (windowSize w h)
  let alpha := JSNum.jmax (JSNum.ofNat 0)
    (JSNum.jmin (JSNum.ofNat 1) (JSNum.jdiv s.stdDev globalStdDev))
  let dynamicK := JSNum.jmul (JSNum.num k) (JSNum.jsub (JSNum.ofNat 1) alpha)
  let threshold := JSNum.jmul s.mean
    (JSNum.jadd (JSNum.ofNat 1)
      (JSNum.jmul dynamicK
        (JSNum.jsub (JSNum.jdiv s.stdDev (JSNum.ofNat 128)) (JSNum.ofNat 1))))
  JSNum.jgtb (byteGet gray (y * w + x)) threshold

/-- `iSauvolaThreshold` (default `k = 0.5`). -/
def iSauvolaThreshold (img : ImageDataIn) (k : Frac) : ImageDataOut :=
  let gray := toGrayscale img
  let g := iSauvolaGlobal gray
  renderPixels img.width img.height (iSauvolaDecision gray img.width img.height k g.2)

/-- WAN Sobel edge magnitude at `(x, y)`: computed for interior pixels
(`1 ≤ x < w-1`, `1 ≤ y < h-1`); border entries of the `Float32Array` stay
at their initial 0. -/
def sobelEdge (gray : List ℕ) (w h x y : ℕ) : JSNum :=
  if 1 ≤ x ∧ x + 1 < w ∧ 1 ≤ y ∧ y + 1 < h then
    let g := fun (j i : ℕ) => byteGet gray (j * w + i)
    let two := JSNum.ofNat 2
    let gx :=
      JSNum.jadd
        (JSNum.jadd
          (JSNum.jadd
            (JSNum.jadd
              (JSNum.jadd (JSNum.jneg (g (y - 1) (x - 1))) (g (y - 1) (x + 1)))
              (JSNum.jneg (JSNum.jmul two (g y (x - 1)))))
            (JSNum.jmul two (g y (x + 1))))
          (JSNum.jneg (g (y + 1) (x - 1))))
        (g (y + 1) (x + 1))
    let gy :=
      JSNum.jadd
        (JSNum.jadd
          (JSNum.jadd
            (JSNum.jsub
              (JSNum.jsub (JSNum.jneg (g (y - 1) (x - 1)))
                (JSNum.jmul two (g (y - 1) x)))
              (g (y - 1) (x + 1)))
            (g (y + 1) (x - 1)))
          (JSNum.jmul two (g (y + 1) x)))
        (g (y + 1) (x + 1))
    JSNum.jsqrt (JSNum.jadd (JSNum.jmul gx gx) (JSNum.jmul gy gy))
  else JSNum.ofNat 0

/-- WAN per-pixel decision: `edgeStrength = edge/255`,
`adaptiveK = k*(1 + edgeStrength)`,
`T = mean * (1 + adaptiveK*(stdDev/128 - 1))`. -/
def wanDecision (gray : List ℕ) (w h : ℕ) (k : Frac) (x y : ℕ) : Bool :=
  let s := calculateLocalStats gray x y w h (windowSize w h)
  let edgeStrength := JSNum.jdiv (sobelEdge gray w h x y) (JSNum.ofNat 255)
  let adaptiveK := JSNum.jmul (JSNum.num k) (JSNum.jadd (JSNum.ofNat 1) edgeStrength)
  let threshold := JSNum.jmul s.mean
    (JSNum.jadd (JSNum.ofNat 1)
      (JSNum.jmul adaptiveK
        (JSNum.jsub (JSNum.jdiv s.stdDev (JSNum.ofNat 128)) (JSNum.ofNat 1))))
  JSNum.jgtb (byteGet gray (y * w + x)) threshold

/-- `wanThreshold` (default `k = 0.5`). -/
def wanThreshold (img : ImageDataIn) (k : Frac) : ImageDataOut :=
  let gray := toGrayscale img
  renderPixels img.width img.height (wanDecision gray img.width img.height k)

theorem byteGet_in_range (l : List ℕ) (i : ℕ) (h : i < l.length) :
    byteGet l i = JSNum.num ⟨(l.getD i 0 : Int), 0⟩ := by
  unfold byteGet
  rw [List.get?_eq_get h, List.getD_eq_get l 0 h]
  rfl

theorem byteGet_out_of_range (l : List ℕ) (i : ℕ) (h : l.length ≤ i) :
    byteGet l i = JSNum.nan := by
  unfold byteGet
  rw [List.get?_eq_none.mpr h]

theorem toGrayscale_length (img : ImageDataIn) :
    (toGrayscale img).length = img.width * img.height := by
  unfold toGrayscale
  rw [List.length_map, List.length_range]

theorem mem_windowIdx (x y w h win : ℕ) (i : ℕ) :
    i ∈ windowIdx x y w h win ↔
      ∃ wy wx, (y - win / 2 ≤ wy ∧ wy ≤ min (h - 1) (y + win / 2)) ∧
        (x - win / 2 ≤ wx ∧ wx ≤ min (w - 1) (x + win / 2)) ∧ i = wy * w + wx := by
  unfold windowIdx
  simp only [List.mem_flatten, List.mem_map, List.mem_range'_1]
  constructor
  · rintro ⟨row, ⟨⟨wy, hwy, rfl⟩, hi⟩⟩
    obtain ⟨wx, hwx, rfl⟩ := List.mem_map.mp hi
    rw [List.mem_range'_1] at hwx
    refine ⟨wy, wx, ?_, ?_, rfl⟩ <;> omega
  · rintro ⟨wy, wx, hy, hx, rfl⟩
    refine ⟨(List.range' (x - win / 2) (min (w - 1) (x + win / 2) + 1 - (x - win / 2))).map
      fun wx => wy * w + wx, ⟨wy, ?_, rfl⟩, ?_⟩
    · omega
    · refine List.mem_map.mpr ⟨wx, ?_, rfl⟩
      rw [List.mem_range'_1]
      omega

theorem self_mem_windowIdx (x y w h win : ℕ) (hx : x < w) (hy : y < h) :
    y * w + x ∈ windowIdx x y w h win := by
  rw [mem_windowIdx]
  exact ⟨y, x, by omega, by omega, rfl⟩

theorem windowIdx_length_pos (x y w h win : ℕ) (hx : x < w) (hy : y < h) :
    0 < (windowIdx x y w h win).length :=
  List.length_pos.mpr (List.ne_nil_of_mem (self_mem_windowIdx x y w h win hx hy))

theorem windowIdx_lt (x y w h win : ℕ) (hx : x < w) (hy : y < h) :
    ∀ i ∈ windowIdx x y w h win, i < w * h := by
  intro i hi
  rw [mem_windowIdx] at hi
  obtain ⟨wy, wx, hwy, hwx, rfl⟩ := hi
  have h1 : wy < h := by omega
  have h2 : wx < w := by omega
  calc wy * w + wx < wy * w + w := by omega
    _ = (wy + 1) * w := by ring
    _ ≤ h * w := Nat.mul_le_mul_right w h1
    _ = w * h := Nat.mul_comm h w

theorem fadd_int (A B : Int) : Frac.fadd ⟨A, 0⟩ ⟨B, 0⟩ = ⟨A + B, 0⟩ := by
  simp [Frac.fadd, Frac.den]

theorem fmul_int (A B : Int) : Frac.fmul ⟨A, 0⟩ ⟨B, 0⟩ = ⟨A * B, 0⟩ := by
  simp [Frac.fmul, Frac.den]

theorem fadd_rep (A B : Int) (ca cb : ℕ) (hca : 0 < ca) (hcb : 0 < cb) :
    Frac.fadd ⟨A, ca - 1⟩ ⟨B, cb - 1⟩ = ⟨A * cb + B * ca, ca * cb - 1⟩ := by
  have h1 : ca - 1 + 1 = ca := by omega
  simp only [Frac.fadd, Frac.den, h1, (by omega : cb - 1 + 1 = cb)]

theorem fmul_rep (A B : Int) (ca cb : ℕ) (hca : 0 < ca) (hcb : 0 < cb) :
    Frac.fmul ⟨A, ca - 1⟩ ⟨B, cb - 1⟩ = ⟨A * B, ca * cb - 1⟩ := by
  simp only [Frac.fmul, Frac.den, (by omega : ca - 1 + 1 = ca), (by omega : cb - 1 + 1 = cb)]

theorem fneg_rep (A : Int) (ca : ℕ) : Frac.fneg ⟨A, ca - 1⟩ = ⟨-A, ca - 1⟩ := rfl

theorem jdiv_rep (A : Int) (c : ℕ) (hc : 0 < c) :
    JSNum.jdiv (JSNum.num ⟨A, 0⟩) (JSNum.ofNat c) = JSNum.num ⟨A, c - 1⟩ := by
  have hcz : ((c : Int)) ≠ 0 := by exact_mod_cast Nat.pos_iff_ne_zero.mp hc
  simp only [JSNum.ofNat, Frac.ofNat, JSNum.jdiv, hcz, if_false]
  have h0 : (0 : Int) ≤ (c : Int) := Int.natCast_nonneg c
  simp only [Frac.fdiv, h0, if_true, Frac.den]
  norm_num

/-- A `foldl` of JS additions of `num`-valued terms stays a `num` and sums
componentwise (denominator 1 throughout). -/
theorem foldl_jadd_num (F : ℕ → JSNum) (G : ℕ → Int) :
    ∀ (l : List ℕ), (∀ i ∈ l, F i = JSNum.num ⟨G i, 0⟩) → ∀ A : Int,
      l.foldl (fun a i => JSNum.jadd a (F i)) (JSNum.num ⟨A, 0⟩)
        = JSNum.num ⟨A + (l.map G).sum, 0⟩ := by
  intro l
  induction l with
  | nil => intro _ A; simp
  | cons i l ih =>
    intro hF A
    have hFi : F i = JSNum.num ⟨G i, 0⟩ := hF i (List.mem_cons_self i l)
    have hstep : JSNum.jadd (JSNum.num ⟨A, 0⟩) (F i) = JSNum.num ⟨A + G i, 0⟩ := by
      rw [hFi, JSNum.jadd_num, fadd_int]
    simp only [List.foldl_cons, hstep]
    rw [ih (fun j hj => hF j (List.mem_cons_of_mem i hj)) (A + G i)]
    simp only [List.map_cons, List.sum_cons]
    congr 2
    ring

theorem sq_sum_aux (a : ℚ) :
    ∀ q : List ℚ, 0 ≤ (q.length : ℚ) * a ^ 2 - 2 * a * q.sum + (q.map (fun z => z ^ 2)).sum := by
  intro q
  induction q with
  | nil => simp
  | cons p q ih =>
    simp only [List.length_cons, List.sum_cons, List.map_cons, List.sum_cons]
    push_cast
    nlinarith [ih, sq_nonneg (a - p)]

theorem sq_sum_le (q : List ℚ) :
    q.sum ^ 2 ≤ (q.length : ℚ) * (q.map (fun z => z ^ 2)).sum := by
  rcases Nat.eq_zero_or_pos q.length with h | h
  · have hq : q = [] := List.length_eq_zero.mp h
    subst hq; simp
  · have hl : (0 : ℚ) < (q.length : ℚ) := by exact_mod_cast h
    have haux := sq_sum_aux (q.sum / (q.length : ℚ)) q
    have haL : q.sum / (q.length : ℚ) * (q.length : ℚ) = q.sum :=
      div_mul_cancel₀ _ (ne_of_gt hl)
    nlinarith [mul_nonneg haux hl.le, haL]

theorem intCast_list_sum (l : List Int) :
    ((l.sum : Int) : ℚ) = (l.map (fun z : Int => (z : ℚ))).sum := by
  induction l with
  | nil => simp
  | cons p l ih => simp [ih]

/-- The values read by a local window. -/
def winVals (gray : List ℕ) (x y w h win : ℕ) : List Int :=
  (windowIdx x y w h win).map (fun i => ((gray.getD i 0 : ℕ) : Int))

/-- Key numeric fact (Cauchy–Schwarz for the window sums):
`count² * Σv² - (Σv)² * count ≥ 0`, i.e. the variance numerator the code
computes is non-negative in exact arithmetic. -/
theorem window_var_num_nonneg (l : List Int) :
    0 ≤ ((l.map (fun z => z * z)).sum) * (l.length : Int) * (l.length : Int)
        - l.sum * l.sum * (l.length : Int) := by
  have h1 := sq_sum_le (l.map (fun z : Int => (z : ℚ)))
  rw [List.length_map] at h1
  have hs : (l.map (fun z : Int => (z : ℚ))).sum = ((l.sum : Int) : ℚ) :=
    (intCast_list_sum l).symm
  have hs2 : ((l.map (fun z : Int => (z : ℚ))).map fun z => z ^ 2).sum
      = (((l.map fun z => z * z).sum : Int) : ℚ) := by
    rw [List.map_map, intCast_list_sum (l.map fun z => z * z), List.map_map]
    apply congrArg List.sum
    apply List.map_congr_left
    intro z _
    simp only [Function.comp_apply]
    push_cast
    ring
  rw [hs, hs2] at h1
  have hL : (0 : ℚ) ≤ (l.length : ℚ) := Nat.cast_nonneg _
  have h2 : ((l.sum : Int) : ℚ) ^ 2 * (l.length : ℚ)
      ≤ (l.length : ℚ) * (((l.map fun z => z * z).sum : Int) : ℚ) * (l.length : ℚ) :=
    mul_le_mul_of_nonneg_right h1 hL
  have h3 : (0 : ℚ) ≤ (((l.map (fun z => z * z)).sum : Int) : ℚ) * (l.length : ℚ) * (l.length : ℚ)
      - ((l.sum : Int) : ℚ) * ((l.sum : Int) : ℚ) * (l.length : ℚ) := by nlinarith [h2]
  exact_mod_cast h3

/-- The window population (the `count` of the source loop). -/
def winCount (x y w h win : ℕ) : ℕ := (windowIdx x y w h win).length

/-- The window sum. -/
def winSum (gray : List ℕ) (x y w h win : ℕ) : Int := (winVals gray x y w h win).sum

/-- The window sum of squares. -/
def winSqSum (gray : List ℕ) (x y w h win : ℕ) : Int :=
  ((winVals gray x y w h win).map (fun z => z * z)).sum

/-- Numerator (over denominator `count³`) of the variance the code computes. -/
def varNum (gray : List ℕ) (x y w h win : ℕ) : Int :=
  winSqSum gray x y w h win * (winCount x y w h win : Int) * (winCount x y w h win : Int)
    - winSum gray x y w h win * winSum gray x y w h win * (winCount x y w h win : Int)

theorem winVals_length (gray : List ℕ) (x y w h win : ℕ) :
    (winVals gray x y w h win).length = winCount x y w h win := by
  unfold winVals winCount
  exact List.length_map _ _

theorem varNum_nonneg (gray : List ℕ) (x y w h win : ℕ) : 0 ≤ varNum gray x y w h win := by
  have h := window_var_num_nonneg (winVals gray x y w h win)
  rw [winVals_length] at h
  exact h

/-- What `calculateLocalStats` computes at an in-bounds pixel, with the
exact fraction representations. -/
theorem calculateLocalStats_spec (gray : List ℕ) (w h win x y : ℕ) (hx : x < w) (hy : y < h)
    (hlen : gray.length = w * h) :
    calculateLocalStats gray x y w h win =
      { mean := JSNum.num ⟨winSum gray x y w h win, winCount x y w h win - 1⟩,
        variance := JSNum.num ⟨varNum gray x y w h win,
          winCount x y w h win * winCount x y w h win * winCount x y w h win - 1⟩,
        stdDev := JSNum.num (Frac.fsqrt ⟨varNum gray x y w h win,
          winCount x y w h win * winCount x y w h win * winCount x y w h win - 1⟩) } := by
  have hall : ∀ i ∈ windowIdx x y w h win, i < gray.length := by
    intro i hi
    rw [hlen]
    exact windowIdx_lt x y w h win hx hy i hi
  have hc : 0 < winCount x y w h win := windowIdx_length_pos x y w h win hx hy
  have hcc : 0 < winCount x y w h win * winCount x y w h win :=
    Nat.mul_pos hc hc
  have hsum : (windowIdx x y w h win).foldl (fun a i => JSNum.jadd a (byteGet gray i))
      (JSNum.ofNat 0) = JSNum.num ⟨winSum gray x y w h win, 0⟩ := by
    have h := foldl_jadd_num (byteGet gray) (fun i => ((gray.getD i 0 : ℕ) : Int))
      (windowIdx x y w h win) (fun i hi => byteGet_in_range gray i (hall i hi)) 0
    have h0 : JSNum.ofNat 0 = JSNum.num ⟨(0 : Int), 0⟩ := rfl
    rw [h0, h]
    unfold winSum winVals
    norm_num
  have hsq : (windowIdx x y w h win).foldl
      (fun a i => JSNum.jadd a (JSNum.jmul (byteGet gray i) (byteGet gray i)))
      (JSNum.ofNat 0) = JSNum.num ⟨winSqSum gray x y w h win, 0⟩ := by
    have hF : ∀ i ∈ windowIdx x y w h win,
        JSNum.jmul (byteGet gray i) (byteGet gray i)
          = JSNum.num ⟨((gray.getD i 0 : ℕ) : Int) * ((gray.getD i 0 : ℕ) : Int), 0⟩ := by
      intro i hi
      rw [byteGet_in_range gray i (hall i hi), JSNum.jmul_num, fmul_int]
    have h := foldl_jadd_num _ (fun i => ((gray.getD i 0 : ℕ) : Int) * ((gray.getD i 0 : ℕ) : Int))
      (windowIdx x y w h win) hF 0
    have h0 : JSNum.ofNat 0 = JSNum.num ⟨(0 : Int), 0⟩ := rfl
    rw [h0, h]
    unfold winSqSum winVals
    rw [List.map_map]
    norm_num
    apply congrArg List.sum
    apply List.map_congr_left
    intro i _
    rfl
  have hmean : JSNum.jdiv (JSNum.num ⟨winSum gray x y w h win, 0⟩)
      (JSNum.ofNat (windowIdx x y w h win).length)
        = JSNum.num ⟨winSum gray x y w h win, winCount x y w h win - 1⟩ := by
    rw [show (windowIdx x y w h win).length = winCount x y w h win from rfl]
    exact jdiv_rep _ _ hc
  have hsqdiv : JSNum.jdiv (JSNum.num ⟨winSqSum gray x y w h win, 0⟩)
      (JSNum.ofNat (windowIdx x y w h win).length)
        = JSNum.num ⟨winSqSum gray x y w h win, winCount x y w h win - 1⟩ := by
    rw [show (windowIdx x y w h win).length = winCount x y w h win from rfl]
    exact jdiv_rep _ _ hc
  have hvar : JSNum.jsub (JSNum.num ⟨winSqSum gray x y w h win, winCount x y w h win - 1⟩)
      (JSNum.jmul (JSNum.num ⟨winSum gray x y w h win, winCount x y w h win - 1⟩)
        (JSNum.num ⟨winSum gray x y w h win, winCount x y w h win - 1⟩))
      = JSNum.num ⟨varNum gray x y w h win,
          winCount x y w h win * winCount x y w h win * winCount x y w h win - 1⟩ := by
    rw [JSNum.jmul_num, fmul_rep _ _ _ _ hc hc, JSNum.jsub_num]
    unfold Frac.fsub
    rw [show Frac.fneg ⟨winSum gray x y w h win * winSum gray x y w h win,
      winCount x y w h win * winCount x y w h win - 1⟩
      = ⟨-(winSum gray x y w h win * winSum gray x y w h win),
        winCount x y w h win * winCount x y w h win - 1⟩ from rfl]
    rw [fadd_rep _ _ _ _ hc hcc]
    congr 1
    · unfold varNum
      push_cast
      ring
  unfold calculateLocalStats
  simp only [hsum, hsq, hmean, hsqdiv, hvar]
  congr 1
  have hnn : ¬(varNum gray x y w h win < 0) := not_lt.mpr (varNum_nonneg gray x y w h win)
  simp only [JSNum.jsqrt, hnn, if_false]

theorem toRat_nonneg_of_n_nonneg (f : Frac) (h : 0 ≤ f.n) : 0 ≤ f.toRat := by
  unfold Frac.toRat
  apply div_nonneg
  · exact_mod_cast h
  · exact le_of_lt f.den_cast_pos

/-- C3: at every in-bounds pixel of a well-formed grayscale buffer, the
variance `calculateLocalStats` returns is a plain number whose value is
non-negative (so clamping it at 0, as the spec describes, is the identity),
and the standard deviation `sqrt(variance)` is a non-negative number and
never NaN. -/
theorem c3_local_variance_nonneg (gray : List ℕ) (w h win x y : ℕ)
    (hx : x < w) (hy : y < h) (hlen : gray.length = w * h) :
    ∃ vf sf : Frac,
      (calculateLocalStats gray x y w h win).variance = JSNum.num vf ∧
      0 ≤ vf.toRat ∧ max 0 vf.toRat = vf.toRat ∧
      (calculateLocalStats gray x y w h win).stdDev = JSNum.num sf ∧
      (calculateLocalStats gray x y w h win).stdDev ≠ JSNum.nan ∧ 0 ≤ sf.toRat := by
  rw [calculateLocalStats_spec gray w h win x y hx hy hlen]
  have hv : (0 : ℚ) ≤ Frac.toRat ⟨varNum gray x y w h win,
      winCount x y w h win * winCount x y w h win * winCount x y w h win - 1⟩ :=
    toRat_nonneg_of_n_nonneg _ (varNum_nonneg gray x y w h win)
  refine ⟨_, _, rfl, hv, max_eq_right hv, rfl, ?_, ?_⟩
  · simp
  · apply toRat_nonneg_of_n_nonneg
    unfold Frac.fsqrt
    exact Int.natCast_nonneg _

/-- C3 witness: a concrete instantiation (1×1 buffer `[5]`, window 3). -/
theorem c3_witness :
    (0 : ℕ) < 1 ∧ ([5] : List ℕ).length = 1 * 1 ∧
    (∃ vf sf : Frac,
      (calculateLocalStats [5] 0 0 1 1 3).variance = JSNum.num vf ∧
      0 ≤ vf.toRat ∧ max 0 vf.toRat = vf.toRat ∧
      (calculateLocalStats [5] 0 0 1 1 3).stdDev = JSNum.num sf ∧
      (calculateLocalStats [5] 0 0 1 1 3).stdDev ≠ JSNum.nan ∧ 0 ≤ sf.toRat) :=
  ⟨by decide, by decide, c3_local_variance_nonneg [5] 1 1 3 0 0 (by decide) (by decide) (by decide)⟩

/-- C10: for every image with `width ≥ 1`, `height ≥ 1` and every in-bounds
pixel, the clamped window is non-empty (it always contains the center
pixel), every index it reads is inside the grayscale buffer, and the mean
and variance divisions are well-defined (the results are plain numbers,
not NaN). -/
theorem c10_window_safe (gray : List ℕ) (w h win x y : ℕ)
    (hx : x < w) (hy : y < h) (hlen : gray.length = w * h) :
    1 ≤ winCount x y w h win ∧
    y * w + x ∈ windowIdx x y w h win ∧
    (∀ i ∈ windowIdx x y w h win, i < gray.length) ∧
    (calculateLocalStats gray x y w h win).mean ≠ JSNum.nan ∧
    (calculateLocalStats gray x y w h win).variance ≠ JSNum.nan := by
  refine ⟨windowIdx_length_pos x y w h win hx hy, self_mem_windowIdx x y w h win hx hy,
    ?_, ?_, ?_⟩
  · intro i hi
    rw [hlen]
    exact windowIdx_lt x y w h win hx hy i hi
  · rw [calculateLocalStats_spec gray w h win x y hx hy hlen]
    simp
  · rw [calculateLocalStats_spec gray w h win x y hx hy hlen]
    simp

/-- C10 witness: concrete instantiation (2×2 buffer, pixel (1,0), window 3). -/
theorem c10_witness :
    (1 : ℕ) < 2 ∧ (0 : ℕ) < 2 ∧ ([9, 3, 7, 1] : List ℕ).length = 2 * 2 ∧
    (1 ≤ winCount 1 0 2 2 3 ∧
     0 * 2 + 1 ∈ windowIdx 1 0 2 2 3 ∧
     (∀ i ∈ windowIdx 1 0 2 2 3, i < ([9, 3, 7, 1] : List ℕ).length) ∧
     (calculateLocalStats [9, 3, 7, 1] 1 0 2 2 3).mean ≠ JSNum.nan ∧
     (calculateLocalStats [9, 3, 7, 1] 1 0 2 2 3).variance ≠ JSNum.nan) :=
  ⟨by decide, by decide, by decide,
   c10_window_safe [9, 3, 7, 1] 2 2 3 1 0 (by decide) (by decide) (by decide)⟩

theorem ceil_div_30 (m : ℕ) : Nat.ceil ((m : ℚ) / 30) = (m + 29) / 30 := by
  apply le_antisymm
  · rw [Nat.ceil_le, div_le_iff₀ (by norm_num : (0 : ℚ) < 30)]
    have h : m ≤ ((m + 29) / 30) * 30 := by omega
    exact_mod_cast h
  · rcases Nat.eq_zero_or_pos ((m + 29) / 30) with h | h
    · omega
    · have hlt : (((m + 29) / 30 - 1 : ℕ) : ℚ) < (m : ℚ) / 30 := by
        rw [lt_div_iff₀ (by norm_num : (0 : ℚ) < 30)]
        have h2 : ((m + 29) / 30 - 1) * 30 < m := by omega
        exact_mod_cast h2
      have := Nat.lt_ceil.mpr hlt
      omega

/-- C4 counterexample: at `min(width,height) = 31` the derived window size
is 3, not the 4 the claim asserts (`ceil(31/30) = 2`, `max(3,2) = 3`). -/
theorem c4_counterexample : windowSize 31 31 = 3 ∧ windowSize 31 31 ≠ 4 := by decide

/-- C4 (amended): every local algorithm derives its window size (the
`windowSize` all seven local entry points call) as
`max(3, ceil(min(width,height)/30))`; at the boundary sizes,
`min(w,h) = 30` gives window size 3 and `min(w,h) = 31` also gives 3. -/
theorem c4_window_size (w h : ℕ) :
    windowSize w h = max 3 (Nat.ceil (((min w h : ℕ) : ℚ) / 30)) ∧
    windowSize 30 30 = 3 ∧ windowSize 31 31 = 3 := by
  refine ⟨?_, by decide, by decide⟩
  unfold windowSize
  rw [ceil_div_30]

/-- C5 counterexample: for the single pixel `(R,G,B) = (1,0,0)` the weighted
sum `0.299` lies in `[0,255]`, yet the stored grayscale sample is `0`
(`Uint8ClampedArray` rounds to an integer): the stored sample does not
equal the weighted sum. -/
theorem c5_counterexample :
    toGrayscale ⟨1, 1, [1, 0, 0, 255]⟩ = [0] ∧
    (0.299 * 1 + 0.587 * 0 + 0.114 * 0 : ℚ) = 299 / 1000 ∧
    (0 : ℚ) ≤ 299 / 1000 ∧ (299 / 1000 : ℚ) ≤ 255 ∧
    ((0 : ℕ) : ℚ) ≠ (299 / 1000 : ℚ) := by
  refine ⟨by decide, by norm_num, by norm_num, by norm_num, by norm_num⟩

/-- The exact weighted luminance of an RGB triple. -/
def luminanceQ (r g b : ℕ) : ℚ :=
  299 / 1000 * r + 587 / 1000 * g + 114 / 1000 * b

theorem toGrayscale_getD (img : ImageDataIn) (p : ℕ)
    (hp : p < img.width * img.height) :
    (toGrayscale img).getD p 0 =
      if 4 * p < img.data.length then clampRoundByte (lumAt img.data p) else 0 := by
  unfold toGrayscale
  rw [List.getD_eq_get? _ _ 0, List.get?_map, List.get?_range hp]
  rfl

theorem clampRoundByte_le (j : JSNum) : clampRoundByte j ≤ 255 := by
  unfold clampRoundByte
  cases j with
  | nan => exact Nat.zero_le _
  | ninf => exact Nat.zero_le _
  | pinf => exact le_refl _
  | num f =>
    by_cases h : f.n ≤ 0
    · simp [h]
    · simp only [h, if_false]
      exact Nat.min_le_left _ _

/-- C5 (amended): for a well-formed input, grayscale sample `p` is the
luminance `0.299 R + 0.587 G + 0.114 B` converted by the
`Uint8ClampedArray` store (round to nearest, ties to even, clamp to
[0,255]); alpha is ignored and the stored byte is at most 255. -/
theorem c5_grayscale_rounded (img : ImageDataIn)
    (hlen : img.data.length = 4 * (img.width * img.height)) (p : ℕ)
    (hp : p < img.width * img.height) :
    ∃ f : Frac,
      lumAt img.data p = JSNum.num f ∧
      f.toRat = luminanceQ (img.data.getD (4 * p) 0) (img.data.getD (4 * p + 1) 0)
        (img.data.getD (4 * p + 2) 0) ∧
      (toGrayscale img).getD p 0 = clampRoundByte (JSNum.num f) ∧
      (toGrayscale img).getD p 0 ≤ 255 := by
  have h0 : 4 * p < img.data.length := by omega
  have h1 : 4 * p + 1 < img.data.length := by omega
  have h2 : 4 * p + 2 < img.data.length := by omega
  have hlum : lumAt img.data p = JSNum.num
      (Frac.fadd
        (Frac.fadd (Frac.fmul ⟨299, 999⟩ ⟨(img.data.getD (4 * p) 0 : Int), 0⟩)
          (Frac.fmul ⟨587, 999⟩ ⟨(img.data.getD (4 * p + 1) 0 : Int), 0⟩))
        (Frac.fmul ⟨114, 999⟩ ⟨(img.data.getD (4 * p + 2) 0 : Int), 0⟩)) := by
    unfold lumAt
    rw [byteGet_in_range _ _ h0, byteGet_in_range _ _ h1, byteGet_in_range _ _ h2]
    rfl
  refine ⟨_, hlum, ?_, ?_, ?_⟩
  · rw [Frac.toRat_fadd, Frac.toRat_fadd, Frac.toRat_fmul, Frac.toRat_fmul, Frac.toRat_fmul]
    unfold luminanceQ Frac.toRat Frac.den
    push_cast
    ring
  · rw [toGrayscale_getD img p hp, if_pos h0, hlum]
  · rw [toGrayscale_getD img p hp, if_pos h0]
    exact clampRoundByte_le _

/-- C5 witness: concrete instantiation at a 1×1 image. -/
theorem c5_witness :
    (⟨1, 1, [10, 20, 30, 255]⟩ : ImageDataIn).data.length = 4 * (1 * 1) ∧ (0 : ℕ) < 1 * 1 ∧
    (∃ f : Frac,
      lumAt [10, 20, 30, 255] 0 = JSNum.num f ∧
      f.toRat = luminanceQ 10 20 30 ∧
      (toGrayscale ⟨1, 1, [10, 20, 30, 255]⟩).getD 0 0 = clampRoundByte (JSNum.num f) ∧
      (toGrayscale ⟨1, 1, [10, 20, 30, 255]⟩).getD 0 0 ≤ 255) :=
  ⟨by decide, by decide, c5_grayscale_rounded ⟨1, 1, [10, 20, 30, 255]⟩ (by decide) 0 (by decide)⟩

/-- The shape every algorithm's output raster must have (claim C6): same
dimensions as the input, exactly `4*width*height` samples, every pixel
`[v,v,v,255]` with `v` exactly 0 or 255. -/
def OutputShaped (img : ImageDataIn) (out : ImageDataOut) : Prop :=
  out.width = img.width ∧ out.height = img.height ∧
  out.data.length = 4 * (img.width * img.height) ∧
  ∀ p < img.width * img.height, ∃ v : ℕ, (v = 0 ∨ v = 255) ∧
    out.data.getD (4 * p) 0 = v ∧ out.data.getD (4 * p + 1) 0 = v ∧
    out.data.getD (4 * p + 2) 0 = v ∧ out.data.getD (4 * p + 3) 0 = 255

theorem blocks_spec (L : List (List ℕ))
    (hb : ∀ b ∈ L, ∃ v : ℕ, (v = 0 ∨ v = 255) ∧ b = [v, v, v, 255]) :
    L.flatten.length = 4 * L.length ∧
    ∀ p < L.length, ∃ v : ℕ, (v = 0 ∨ v = 255) ∧
      L.flatten.getD (4 * p) 0 = v ∧ L.flatten.getD (4 * p + 1) 0 = v ∧
      L.flatten.getD (4 * p + 2) 0 = v ∧ L.flatten.getD (4 * p + 3) 0 = 255 := by
  induction L with
  | nil => exact ⟨rfl, fun p hp => absurd hp (Nat.not_lt_zero p)⟩
  | cons b L ih =>
    obtain ⟨v, hv, rfl⟩ := hb b (List.mem_cons_self b L)
    obtain ⟨ihlen, ihp⟩ := ih (fun b' hb' => hb b' (List.mem_cons_of_mem _ hb'))
    rw [List.flatten_cons]
    constructor
    · rw [List.length_append, ihlen]
      simp only [List.length_cons, List.length_nil]
      ring
    · intro p hp
      cases p with
      | zero => exact ⟨v, hv, rfl, rfl, rfl, rfl⟩
      | succ q =>
        obtain ⟨v', hv', e0, e1, e2, e3⟩ := ihp q (by
          simp only [List.length_cons] at hp
          omega)
        have hblen : ([v, v, v, 255] : List ℕ).length = 4 := rfl
        refine ⟨v', hv', ?_, ?_, ?_, ?_⟩ <;>
          rw [List.getD_append_right _ _ 0 _ (by simp only [hblen]; omega), hblen] <;>
          first
            | (rw [show 4 * (q + 1) - 4 = 4 * q from by ring_nf; omega]; assumption)
            | (rw [show 4 * (q + 1) + 1 - 4 = 4 * q + 1 from by ring_nf; omega]; assumption)
            | (rw [show 4 * (q + 1) + 2 - 4 = 4 * q + 2 from by ring_nf; omega]; assumption)
            | (rw [show 4 * (q + 1) + 3 - 4 = 4 * q + 3 from by ring_nf; omega]; assumption)

theorem flatten_map_flatten {α : Type} (l : List ℕ) (g : ℕ → List (List α)) :
    (l.map (fun a => (g a).flatten)).flatten = ((l.map g).flatten).flatten := by
  induction l with
  | nil => rfl
  | cons a l ih =>
    simp only [List.map_cons, List.flatten_cons, List.flatten_append, ih]

theorem renderPixels_shaped (img : ImageDataIn) (f : ℕ → ℕ → Bool) :
    OutputShaped img (renderPixels img.width img.height f) := by
  set w := img.width
  set h := img.height
  have hdata : (renderPixels w h f).data =
      (((List.range h).map fun y => (List.range w).map fun x =>
        [if f x y then 255 else 0, if f x y then 255 else 0,
         if f x y then 255 else 0, 255]).flatten).flatten := by
    unfold renderPixels
    rw [← flatten_map_flatten]
  set L := ((List.range h).map fun y => (List.range w).map fun x =>
    ([if f x y then 255 else 0, if f x y then 255 else 0,
      if f x y then 255 else 0, 255] : List ℕ)).flatten with hL
  have hLlen : L.length = w * h := by
    rw [hL, List.length_flatten, List.map_map]
    have : ((List.range h).map (List.length ∘ fun y => (List.range w).map fun x =>
        ([if f x y then 255 else 0, if f x y then 255 else 0,
          if f x y then 255 else 0, 255] : List ℕ))) = List.replicate h w := by
      rw [List.eq_replicate_iff]
      constructor
      · rw [List.length_map, List.length_range]
      · intro b hb
        obtain ⟨y, _, rfl⟩ := List.mem_map.mp hb
        simp [List.length_map, List.length_range]
    rw [this, List.sum_replicate, smul_eq_mul, Nat.mul_comm]
  have hmem : ∀ b ∈ L, ∃ v : ℕ, (v = 0 ∨ v = 255) ∧ b = [v, v, v, 255] := by
    intro b hb
    rw [hL] at hb
    obtain ⟨row, hrow, hbrow⟩ := List.mem_flatten.mp hb
    obtain ⟨y, _, rfl⟩ := List.mem_map.mp hrow
    obtain ⟨x, _, rfl⟩ := List.mem_map.mp hbrow
    by_cases hf : f x y
    · exact ⟨255, Or.inr rfl, by simp [hf]⟩
    · exact ⟨0, Or.inl rfl, by simp [hf]⟩
  obtain ⟨hlen, hpix⟩ := blocks_spec L hmem
  refine ⟨rfl, rfl, ?_, ?_⟩
  · rw [hdata, hlen, hLlen]
  · intro p hp
    rw [hdata]
    exact hpix p (by rw [hLlen]; exact hp)

theorem applyThreshold_shaped (img : ImageDataIn) (gray : List ℕ) (t : JSNum)
    (hg : gray.length = img.width * img.height) :
    OutputShaped img (applyThreshold gray t img.width img.height) := by
  set w := img.width
  set h := img.height
  set L := (List.range (w * h)).map fun i =>
    if i < gray.length then
      [if JSNum.jgtb (JSNum.ofNat (gray.getD i 0)) t then 255 else 0,
       if JSNum.jgtb (JSNum.ofNat (gray.getD i 0)) t then 255 else 0,
       if JSNum.jgtb (JSNum.ofNat (gray.getD i 0)) t then 255 else 0, 255]
    else ([0, 0, 0, 0] : List ℕ) with hLdef
  have hdata : (applyThreshold gray t w h).data = L.flatten := rfl
  have hLlen : L.length = w * h := by
    rw [hLdef, List.length_map, List.length_range]
  have hmem : ∀ b ∈ L, ∃ v : ℕ, (v = 0 ∨ v = 255) ∧ b = [v, v, v, 255] := by
    intro b hb
    rw [hLdef] at hb
    obtain ⟨i, hi, rfl⟩ := List.mem_map.mp hb
    rw [List.mem_range] at hi
    rw [if_pos (by rw [hg]; exact hi)]
    by_cases hgt : JSNum.jgtb (JSNum.ofNat (gray.getD i 0)) t = true
    · exact ⟨255, Or.inr rfl, by rw [if_pos hgt]⟩
    · exact ⟨0, Or.inl rfl, by rw [if_neg hgt]⟩
  obtain ⟨hlen, hpix⟩ := blocks_spec L hmem
  refine ⟨rfl, rfl, ?_, ?_⟩
  · rw [hdata, hlen, hLlen]
  · intro p hp
    rw [hdata]
    exact hpix p (by rw [hLlen]; exact hp)

/-- C6: for every input raster (and any parameter value), each of the eight
algorithms returns an output with the input's width and height whose every
pixel is `[v,v,v,255]` with `v` exactly 0 or 255. -/
theorem c6_outputs_binary (img : ImageDataIn) (k : Frac) :
    OutputShaped img (otsuThreshold img) ∧
    OutputShaped img (niblackThreshold img k) ∧
    OutputShaped img (sauvolaThreshold img k) ∧
    OutputShaped img (wolfThreshold img k) ∧
    OutputShaped img (nickThreshold img k) ∧
    OutputShaped img (trSinghThreshold img k) ∧
    OutputShaped img (iSauvolaThreshold img k) ∧
    OutputShaped img (wanThreshold img k) :=
  ⟨applyThreshold_shaped img (toGrayscale img)
      (JSNum.ofNat (otsuComputeThreshold (toGrayscale img))) (toGrayscale_length img),
   renderPixels_shaped img _, renderPixels_shaped img _, renderPixels_shaped img _,
   renderPixels_shaped img _, renderPixels_shaped img _, renderPixels_shaped img _,
   renderPixels_shaped img _⟩

/-- C6 witness: the output-shape property at a concrete 1×1 image. -/
theorem c6_witness :
    OutputShaped ⟨1, 1, [3, 3, 3, 255]⟩ (otsuThreshold ⟨1, 1, [3, 3, 3, 255]⟩) ∧
    OutputShaped ⟨1, 1, [3, 3, 3, 255]⟩ (niblackThreshold ⟨1, 1, [3, 3, 3, 255]⟩ ⟨-1, 4⟩) :=
  ⟨(c6_outputs_binary ⟨1, 1, [3, 3, 3, 255]⟩ ⟨-1, 4⟩).1,
   (c6_outputs_binary ⟨1, 1, [3, 3, 3, 255]⟩ ⟨-1, 4⟩).2.1⟩

/-- C2 counterexample: a malformed raster (2×1 but only 4 RGBA samples
instead of 8) is not rejected: `otsuThreshold` raises nothing and returns a
complete 2×1 output buffer (the missing pixel reads as 0), contradicting
"fails with a ValidationError and no output buffer is produced". -/
theorem c2_counterexample :
    (⟨2, 1, [7, 7, 7, 255]⟩ : ImageDataIn).data.length ≠
      (⟨2, 1, [7, 7, 7, 255]⟩ : ImageDataIn).width *
        (⟨2, 1, [7, 7, 7, 255]⟩ : ImageDataIn).height * 4 ∧
    otsuThreshold ⟨2, 1, [7, 7, 7, 255]⟩ =
      ⟨2, 1, [255, 255, 255, 255, 0, 0, 0, 255]⟩ := by
  constructor
  · decide
  · decide

/-- C2 (amended): the algorithm entry points perform no structural
validation and never fail: there is no ValidationError in the library, and
even on a malformed raster (sample count ≠ width*height*4) every algorithm
returns a complete output buffer of `4*width*height` samples with the
input's dimensions (missing samples read as 0, excess samples are ignored).
Structural validity is an invariant of the platform `ImageData` type, not
checked by this code. -/
theorem c2_no_validation (img : ImageDataIn) (k : Frac)
    (_hmal : img.data.length ≠ img.width * img.height * 4) :
    (otsuThreshold img).data.length = 4 * (img.width * img.height) ∧
    (niblackThreshold img k).data.length = 4 * (img.width * img.height) ∧
    (sauvolaThreshold img k).data.length = 4 * (img.width * img.height) ∧
    (wolfThreshold img k).data.length = 4 * (img.width * img.height) ∧
    (nickThreshold img k).data.length = 4 * (img.width * img.height) ∧
    (trSinghThreshold img k).data.length = 4 * (img.width * img.height) ∧
    (iSauvolaThreshold img k).data.length = 4 * (img.width * img.height) ∧
    (wanThreshold img k).data.length = 4 * (img.width * img.height) :=
  ⟨(applyThreshold_shaped img (toGrayscale img)
      (JSNum.ofNat (otsuComputeThreshold (toGrayscale img))) (toGrayscale_length img)).2.2.1,
   (renderPixels_shaped img _).2.2.1, (renderPixels_shaped img _).2.2.1,
   (renderPixels_shaped img _).2.2.1, (renderPixels_shaped img _).2.2.1,
   (renderPixels_shaped img _).2.2.1, (renderPixels_shaped img _).2.2.1,
   (renderPixels_shaped img _).2.2.1⟩

/-- C2 witness: concrete malformed input (1×1 with an empty sample list). -/
theorem c2_witness :
    (⟨1, 1, []⟩ : ImageDataIn).data.length ≠ 1 * 1 * 4 ∧
    (otsuThreshold ⟨1, 1, []⟩).data.length = 4 * (1 * 1) ∧
    (wanThreshold ⟨1, 1, []⟩ ⟨1, 1⟩).data.length = 4 * (1 * 1) :=
  ⟨by decide, (c2_no_validation ⟨1, 1, []⟩ ⟨1, 1⟩ (by decide)).1,
   (c2_no_validation ⟨1, 1, []⟩ ⟨1, 1⟩ (by decide)).2.2.2.2.2.2.2⟩

theorem getD_replicate (n v i : ℕ) (h : i < n) : (List.replicate n v).getD i 0 = v := by
  rw [List.getD_eq_get? _ _ 0, List.get?_eq_get (by simpa using h), List.get_replicate]
  rfl

theorem list_sum_const (l : List Int) (c : Int) (h : ∀ z ∈ l, z = c) :
    l.sum = l.length * c := by
  have hrep : l = List.replicate l.length c := List.eq_replicate_iff.mpr ⟨rfl, h⟩
  rw [hrep, List.sum_replicate, List.length_replicate, nsmul_eq_mul]

theorem toRat_mk (A : Int) (c : ℕ) (hc : 0 < c) : Frac.toRat ⟨A, c - 1⟩ = (A : ℚ) / c := by
  unfold Frac.toRat Frac.den
  rw [show c - 1 + 1 = c from by omega]

theorem fsqrt_of_sq (A : Int) (dp : ℕ) (m : ℕ) (hA : A.toNat * (dp + 1) = m * m) :
    Frac.fsqrt ⟨A, dp⟩ = ⟨(m : Int), dp⟩ := by
  unfold Frac.fsqrt Frac.den
  rw [show (⟨A, dp⟩ : Frac).dp + 1 = dp + 1 from rfl] at *
  simp only []
  rw [show A.toNat * ((⟨A, dp⟩ : Frac).dp + 1) = m * m from hA, isqrt_sq]

/-- Local statistics on a uniform buffer: mean is the common value, variance
and standard deviation are exactly 0. -/
theorem calculateLocalStats_uniform (gray : List ℕ) (v w h win x y : ℕ)
    (hx : x < w) (hy : y < h) (hlen : gray.length = w * h)
    (huni : ∀ i < gray.length, gray.getD i 0 = v) :
    0 < winCount x y w h win ∧
    winSum gray x y w h win = (winCount x y w h win : Int) * (v : Int) ∧
    varNum gray x y w h win = 0 ∧
    calculateLocalStats gray x y w h win =
      { mean := JSNum.num ⟨(winCount x y w h win : Int) * (v : Int), winCount x y w h win - 1⟩,
        variance := JSNum.num ⟨0,
          winCount x y w h win * winCount x y w h win * winCount x y w h win - 1⟩,
        stdDev := JSNum.num ⟨0,
          winCount x y w h win * winCount x y w h win * winCount x y w h win - 1⟩ } := by
  have hc : 0 < winCount x y w h win := windowIdx_length_pos x y w h win hx hy
  have hvals : ∀ z ∈ winVals gray x y w h win, z = (v : Int) := by
    intro z hz
    unfold winVals at hz
    obtain ⟨i, hi, rfl⟩ := List.mem_map.mp hz
    have : i < gray.length := by
      rw [hlen]
      exact windowIdx_lt x y w h win hx hy i hi
    rw [huni i this]
  have hsum : winSum gray x y w h win = (winCount x y w h win : Int) * (v : Int) := by
    unfold winSum
    rw [list_sum_const _ _ hvals, winVals_length]
  have hsq : winSqSum gray x y w h win = (winCount x y w h win : Int) * ((v : Int) * v) := by
    unfold winSqSum
    rw [list_sum_const _ ((v : Int) * v) (by
      intro z hz
      obtain ⟨z', hz', rfl⟩ := List.mem_map.mp hz
      rw [hvals z' hz'])]
    rw [List.length_map, winVals_length]
  have hvar : varNum gray x y w h win = 0 := by
    unfold varNum
    rw [hsum, hsq]
    ring
  refine ⟨hc, hsum, hvar, ?_⟩
  rw [calculateLocalStats_spec gray w h win x y hx hy hlen, hsum, hvar]
  congr 1
  rw [fsqrt_of_sq 0 _ 0 (by simp)]
  norm_num

/-- A uniform all-[r,g,b,a] raster converts to a uniform grayscale buffer. -/
theorem toGrayscale_uniform (img : ImageDataIn) (r g b a : ℕ)
    (hdata : img.data = (List.replicate (img.width * img.height) [r, g, b, a]).flatten) :
    toGrayscale img = List.replicate (img.width * img.height)
      (clampRoundByte (JSNum.num
        (Frac.fadd
          (Frac.fadd (Frac.fmul ⟨299, 999⟩ ⟨(r : Int), 0⟩) (Frac.fmul ⟨587, 999⟩ ⟨(g : Int), 0⟩))
          (Frac.fmul ⟨114, 999⟩ ⟨(b : Int), 0⟩)))) := by
  have hflat : ∀ n : ℕ, (List.replicate n ([r, g, b, a] : List ℕ)).flatten.length = n * 4 := by
    intro n
    induction n with
    | zero => rfl
    | succ m ih =>
      rw [List.replicate_succ, List.flatten_cons, List.length_append, ih]
      simp only [List.length_cons, List.length_nil]
      ring
  have hget : ∀ n p j, p < n → j < 4 →
      ((List.replicate n ([r, g, b, a] : List ℕ)).flatten).getD (4 * p + j) 0
        = ([r, g, b, a] : List ℕ).getD j 0 := by
    intro n
    induction n with
    | zero => intro p j hp _; exact absurd hp (Nat.not_lt_zero p)
    | succ m ih =>
      intro p j hp hj
      rw [List.replicate_succ, List.flatten_cons]
      cases p with
      | zero =>
        rw [Nat.mul_zero, Nat.zero_add]
        exact List.getD_append _ _ 0 j (by simp only [List.length_cons, List.length_nil]; omega)
      | succ q =>
        rw [List.getD_append_right _ _ 0 _ (by simp only [List.length_cons, List.length_nil]; omega)]
        have harg : 4 * (q + 1) + j - ([r, g, b, a] : List ℕ).length = 4 * q + j := by
          simp only [List.length_cons, List.length_nil]
          omega
        rw [harg]
        exact ih q j (by omega) hj
  have hlen : img.data.length = (img.width * img.height) * 4 := by
    rw [hdata, hflat]
  rw [List.eq_replicate_iff]
  constructor
  · exact toGrayscale_length img
  · intro s hs
    unfold toGrayscale at hs
    obtain ⟨p, hp, rfl⟩ := List.mem_map.mp hs
    rw [List.mem_range] at hp
    rw [if_pos (by omega)]
    have h0 : 4 * p < img.data.length := by omega
    have h1 : 4 * p + 1 < img.data.length := by omega
    have h2 : 4 * p + 2 < img.data.length := by omega
    congr 1
    unfold lumAt
    rw [byteGet_in_range _ _ h0, byteGet_in_range _ _ h1, byteGet_in_range _ _ h2]
    rw [show img.data.getD (4 * p) 0 = r by
      rw [hdata, show 4 * p = 4 * p + 0 from rfl, hget _ p 0 hp (by omega)]; rfl]
    rw [show img.data.getD (4 * p + 1) 0 = g by
      rw [hdata, hget _ p 1 hp (by omega)]; rfl]
    rw [show img.data.getD (4 * p + 2) 0 = b by
      rw [hdata, hget _ p 2 hp (by omega)]; rfl]
    rfl

theorem jgtb_num (a b : Frac) : JSNum.jgtb (JSNum.num a) (JSNum.num b) = Frac.fltb b a := rfl

theorem mean_toRat (c v : ℕ) (hc : 0 < c) :
    Frac.toRat ⟨(c : Int) * (v : Int), c - 1⟩ = (v : ℚ) := by
  rw [toRat_mk _ _ hc]
  have hcq : ((c : ℚ)) ≠ 0 := by exact_mod_cast Nat.pos_iff_ne_zero.mp hc
  push_cast
  field_simp

theorem zero_toRat (c : ℕ) (hc : 0 < c) : Frac.toRat ⟨0, c - 1⟩ = 0 := by
  rw [toRat_mk _ _ hc]
  norm_num

theorem flatten_replicate_blocks (w h : ℕ) (bd : List ℕ) :
    (List.replicate h (List.replicate w bd).flatten).flatten
      = (List.replicate (w * h) bd).flatten := by
  induction h with
  | zero => rw [Nat.mul_zero]; rfl
  | succ m ih =>
    rw [List.replicate_succ, List.flatten_cons, ih,
        show w * (m + 1) = w + w * m from by ring, List.replicate_add, List.flatten_append]

/-- All-equal per-pixel output. -/
def allPix (w h c : ℕ) : ImageDataOut :=
  ⟨w, h, (List.replicate (w * h) ([c, c, c, 255] : List ℕ)).flatten⟩

theorem renderPixels_const (w h : ℕ) (f : ℕ → ℕ → Bool) (d : Bool)
    (hf : ∀ x < w, ∀ y < h, f x y = d) :
    renderPixels w h f = allPix w h (if d then 255 else 0) := by
  unfold renderPixels allPix
  have hrow : ∀ y < h, ((List.range w).map fun x =>
      ([if f x y then 255 else 0, if f x y then 255 else 0, if f x y then 255 else 0, 255]
        : List ℕ))
      = List.replicate w ([if d then 255 else 0, if d then 255 else 0,
          if d then 255 else 0, 255] : List ℕ) := by
    intro y hy
    rw [List.eq_replicate_iff]
    refine ⟨by rw [List.length_map, List.length_range], ?_⟩
    intro blk hblk
    obtain ⟨x, hxr, rfl⟩ := List.mem_map.mp hblk
    rw [List.mem_range] at hxr
    rw [hf x hxr y hy]
  have houter : ((List.range h).map fun y => (((List.range w).map fun x =>
      ([if f x y then 255 else 0, if f x y then 255 else 0, if f x y then 255 else 0, 255]
        : List ℕ)).flatten))
      = List.replicate h ((List.replicate w ([if d then 255 else 0, if d then 255 else 0,
          if d then 255 else 0, 255] : List ℕ)).flatten) := by
    rw [List.eq_replicate_iff]
    refine ⟨by rw [List.length_map, List.length_range], ?_⟩
    intro row hrowm
    obtain ⟨y, hyr, rfl⟩ := List.mem_map.mp hrowm
    rw [List.mem_range] at hyr
    rw [hrow y hyr]
  congr 1
  rw [houter, flatten_replicate_blocks]

/-- Shared facts at a pixel of a uniform grayscale buffer. -/
theorem uniform_pixel_facts (gray : List ℕ) (v w h win x y : ℕ)
    (hx : x < w) (hy : y < h) (hgray : gray = List.replicate (w * h) v) :
    byteGet gray (y * w + x) = JSNum.num ⟨(v : Int), 0⟩ ∧
    0 < winCount x y w h win ∧
    calculateLocalStats gray x y w h win =
      { mean := JSNum.num ⟨(winCount x y w h win : Int) * (v : Int), winCount x y w h win - 1⟩,
        variance := JSNum.num ⟨0,
          winCount x y w h win * winCount x y w h win * winCount x y w h win - 1⟩,
        stdDev := JSNum.num ⟨0,
          winCount x y w h win * winCount x y w h win * winCount x y w h win - 1⟩ } := by
  have hlen : gray.length = w * h := by rw [hgray, List.length_replicate]
  have huni : ∀ i < gray.length, gray.getD i 0 = v := by
    intro i hi
    rw [hlen] at hi
    rw [hgray]
    exact getD_replicate _ _ _ hi
  obtain ⟨hc, _, _, hstats⟩ :=
    calculateLocalStats_uniform gray v w h win x y hx hy hlen huni
  have hidx : y * w + x < gray.length := by
    rw [hlen]
    exact windowIdx_lt x y w h win hx hy _ (self_mem_windowIdx x y w h win hx hy)
  have hpix : byteGet gray (y * w + x) = JSNum.num ⟨(v : Int), 0⟩ := by
    rw [byteGet_in_range _ _ hidx, huni _ hidx]
  exact ⟨hpix, hc, hstats⟩

theorem cube_pos (c : ℕ) (hc : 0 < c) : 0 < c * c * c :=
  Nat.mul_pos (Nat.mul_pos hc hc) hc

/-- Niblack on a uniform buffer (`k = -0.2`): the threshold is `mean` and
`v > v` is false, so every pixel is background. -/
theorem niblack_uniform_decision (gray : List ℕ) (v w h x y : ℕ)
    (hx : x < w) (hy : y < h) (hgray : gray = List.replicate (w * h) v) :
    niblackDecision gray w h ⟨-1, 4⟩ x y = false := by
  obtain ⟨hpix, hc, hstats⟩ :=
    uniform_pixel_facts gray v w h (windowSize w h) x y hx hy hgray
  unfold niblackDecision
  dsimp only
  rw [hstats]
  dsimp only
  rw [hpix, JSNum.jmul_num, JSNum.jadd_num, jgtb_num, Bool.eq_false_iff]
  intro hcontra
  rw [Frac.fltb_iff, Frac.toRat_fadd, Frac.toRat_fmul,
      mean_toRat _ _ hc, zero_toRat _ (cube_pos _ hc)] at hcontra
  rw [show Frac.toRat ⟨-1, 4⟩ = -1 / 5 from by norm_num [Frac.toRat, Frac.den]] at hcontra
  rw [show Frac.toRat ⟨(v : Int), 0⟩ = (v : ℚ) from by norm_num [Frac.toRat, Frac.den]]
    at hcontra
  norm_num at hcontra

/-- Sauvola on a uniform buffer (`k = 0.5`): the threshold is `v/2`, so the
decision is exactly `0 < v`, uniformly for every pixel. -/
theorem sauvola_uniform_decision (gray : List ℕ) (v w h x y : ℕ)
    (hx : x < w) (hy : y < h) (hgray : gray = List.replicate (w * h) v) :
    sauvolaDecision gray w h ⟨1, 1⟩ x y = decide (0 < v) := by
  obtain ⟨hpix, hc, hstats⟩ :=
    uniform_pixel_facts gray v w h (windowSize w h) x y hx hy hgray
  unfold sauvolaDecision
  dsimp only
  rw [hstats]
  dsimp only
  rw [hpix]
  rw [show JSNum.ofNat 128 = JSNum.num ⟨(128 : Int), 0⟩ from rfl,
      show JSNum.ofNat 1 = JSNum.num ⟨(1 : Int), 0⟩ from rfl]
  rw [JSNum.jdiv_num _ _ (by decide)]
  rw [JSNum.jsub_num, JSNum.jmul_num, JSNum.jadd_num, JSNum.jmul_num, jgtb_num]
  have hval : (Frac.fmul ⟨(winCount x y w h (windowSize w h) : Int) * (v : Int),
      winCount x y w h (windowSize w h) - 1⟩
      (Frac.fadd ⟨(1 : Int), 0⟩ (Frac.fmul ⟨1, 1⟩
        (Frac.fsub (Frac.fdiv ⟨0, winCount x y w h (windowSize w h) *
          winCount x y w h (windowSize w h) * winCount x y w h (windowSize w h) - 1⟩
          ⟨(128 : Int), 0⟩) ⟨(1 : Int), 0⟩)))).toRat = (v : ℚ) / 2 := by
    rw [Frac.toRat_fmul, Frac.toRat_fadd, Frac.toRat_fmul, Frac.toRat_fsub,
        Frac.toRat_fdiv _ _ (by decide), mean_toRat _ _ hc,
        zero_toRat _ (cube_pos _ hc)]
    rw [show Frac.toRat ⟨(1 : Int), 0⟩ = 1 from by norm_num [Frac.toRat, Frac.den],
        show Frac.toRat ⟨(1 : Int), 1⟩ = 1 / 2 from by norm_num [Frac.toRat, Frac.den],
        show Frac.toRat ⟨(128 : Int), 0⟩ = 128 from by norm_num [Frac.toRat, Frac.den]]
    ring
  by_cases hv : 0 < v
  · rw [decide_eq_true (show 0 < v from hv)]
    rw [Frac.fltb_iff]
    rw [hval]
    rw [show Frac.toRat ⟨(v : Int), 0⟩ = (v : ℚ) from by norm_num [Frac.toRat, Frac.den]]
    have hvq : (0 : ℚ) < (v : ℚ) := by exact_mod_cast hv
    linarith
  · have hv0 : v = 0 := by omega
    subst hv0
    rw [decide_eq_false (by omega)]
    rw [Bool.eq_false_iff]
    intro hcontra
    rw [Frac.fltb_iff, hval] at hcontra
    rw [show Frac.toRat ⟨((0 : ℕ) : Int), 0⟩ = 0 from by norm_num [Frac.toRat, Frac.den]]
      at hcontra
    norm_num at hcontra

theorem jsqrt_perfect (f : Frac) (m : ℕ) (hnn : 0 ≤ f.n)
    (hm : f.n.toNat * f.den = m * m) :
    JSNum.jsqrt (JSNum.num f) = JSNum.num ⟨(m : Int), f.dp⟩ := by
  show (if f.n < 0 then JSNum.nan else JSNum.num f.fsqrt) = _
  rw [if_neg (not_lt.mpr hnn)]
  congr 1
  unfold Frac.fsqrt
  rw [hm, isqrt_sq]

/-- The argument of NICK's square root on a uniform window is the perfect
square `(mean)² = v²`, and the square root evaluates exactly. -/
theorem nick_sqrt_uniform (c v : ℕ) (hc : 0 < c) :
    JSNum.jsqrt (JSNum.jadd
      (JSNum.num ⟨0, c * c * c - 1⟩)
      (JSNum.jmul (JSNum.num ⟨(c : Int) * (v : Int), c - 1⟩)
        (JSNum.num ⟨(c : Int) * (v : Int), c - 1⟩)))
      = JSNum.num ⟨((c * c * c * c * c * v : ℕ) : Int), (c * c * c) * (c * c) - 1⟩ := by
  rw [JSNum.jmul_num, fmul_rep _ _ _ _ hc hc, JSNum.jadd_num,
      fadd_rep _ _ _ _ (cube_pos _ hc) (Nat.mul_pos hc hc)]
  have h1 : ((0 : Int) * ((c * c : ℕ) : Int)
        + ((c : Int) * (v : Int) * ((c : Int) * (v : Int))) * ((c * c * c : ℕ) : Int))
      = ((c * v * (c * v) * (c * c * c) : ℕ) : Int) := by
    push_cast
    ring
  rw [h1]
  apply jsqrt_perfect
  · exact Int.natCast_nonneg _
  · rw [Int.toNat_natCast]
    show c * v * (c * v) * (c * c * c) * ((c * c * c) * (c * c) - 1 + 1) = _
    rw [Nat.sub_add_cancel (Nat.mul_pos (cube_pos _ hc) (Nat.mul_pos hc hc))]
    ring

/-- NICK on a uniform buffer (`k = -0.2`): the threshold is `v - v/5`, so
the decision is exactly `0 < v`, uniformly for every pixel. -/
theorem nick_uniform_decision (gray : List ℕ) (v w h x y : ℕ)
    (hx : x < w) (hy : y < h) (hgray : gray = List.replicate (w * h) v) :
    nickDecision gray w h ⟨-1, 4⟩ x y = decide (0 < v) := by
  obtain ⟨hpix, hc, hstats⟩ :=
    uniform_pixel_facts gray v w h (windowSize w h) x y hx hy hgray
  set C := winCount x y w h (windowSize w h) with hC
  unfold nickDecision
  dsimp only
  rw [hstats]
  dsimp only
  rw [hpix, nick_sqrt_uniform _ _ hc, JSNum.jmul_num, JSNum.jadd_num, jgtb_num]
  have hbig : 0 < (C * C * C) * (C * C) := Nat.mul_pos (cube_pos _ hc) (Nat.mul_pos hc hc)
  have hCq : ((C : ℚ)) ≠ 0 := by exact_mod_cast Nat.pos_iff_ne_zero.mp hc
  have hsq : Frac.toRat ⟨((C * C * C * C * C * v : ℕ) : Int), (C * C * C) * (C * C) - 1⟩
      = (v : ℚ) := by
    rw [toRat_mk _ _ hbig]
    push_cast
    field_simp
    ring
  have hval : (Frac.fadd ⟨(C : Int) * (v : Int), C - 1⟩ (Frac.fmul ⟨-1, 4⟩
      ⟨((C * C * C * C * C * v : ℕ) : Int), (C * C * C) * (C * C) - 1⟩)).toRat
      = 4 * (v : ℚ) / 5 := by
    rw [Frac.toRat_fadd, Frac.toRat_fmul, mean_toRat _ _ hc, hsq,
        show Frac.toRat ⟨-1, 4⟩ = -1 / 5 from by norm_num [Frac.toRat, Frac.den]]
    ring
  by_cases hv : 0 < v
  · rw [decide_eq_true (show 0 < v from hv), Frac.fltb_iff, hval,
        show Frac.toRat ⟨(v : Int), 0⟩ = (v : ℚ) from by norm_num [Frac.toRat, Frac.den]]
    have hvq : (0 : ℚ) < (v : ℚ) := by exact_mod_cast hv
    linarith
  · have hv0 : v = 0 := by omega
    subst hv0
    rw [decide_eq_false (by omega), Bool.eq_false_iff]
    intro hcontra
    rw [Frac.fltb_iff, hval] at hcontra
    rw [show Frac.toRat ⟨((0 : ℕ) : Int), 0⟩ = 0 from by norm_num [Frac.toRat, Frac.den]]
      at hcontra
    norm_num at hcontra

/-- T.R. Singh on a uniform buffer (`p = 0.5`): identical in form to
Sauvola; the threshold is `v/2` and the decision is exactly `0 < v`. -/
theorem trsingh_uniform_decision (gray : List ℕ) (v w h x y : ℕ)
    (hx : x < w) (hy : y < h) (hgray : gray = List.replicate (w * h) v) :
    trSinghDecision gray w h ⟨1, 1⟩ x y = decide (0 < v) := by
  obtain ⟨hpix, hc, hstats⟩ :=
    uniform_pixel_facts gray v w h (windowSize w h) x y hx hy hgray
  unfold trSinghDecision
  dsimp only
  rw [hstats]
  dsimp only
  rw [hpix]
  rw [show JSNum.ofNat 128 = JSNum.num ⟨(128 : Int), 0⟩ from rfl,
      show JSNum.ofNat 1 = JSNum.num ⟨(1 : Int), 0⟩ from rfl]
  rw [JSNum.jdiv_num _ _ (by decide)]
  rw [JSNum.jsub_num, JSNum.jmul_num, JSNum.jadd_num, JSNum.jmul_num, jgtb_num]
  have hval : (Frac.fmul ⟨(winCount x y w h (windowSize w h) : Int) * (v : Int),
      winCount x y w h (windowSize w h) - 1⟩
      (Frac.fadd ⟨(1 : Int), 0⟩ (Frac.fmul ⟨1, 1⟩
        (Frac.fsub (Frac.fdiv ⟨0, winCount x y w h (windowSize w h) *
          winCount x y w h (windowSize w h) * winCount x y w h (windowSize w h) - 1⟩
          ⟨(128 : Int), 0⟩) ⟨(1 : Int), 0⟩)))).toRat = (v : ℚ) / 2 := by
    rw [Frac.toRat_fmul, Frac.toRat_fadd, Frac.toRat_fmul, Frac.toRat_fsub,
        Frac.toRat_fdiv _ _ (by decide), mean_toRat _ _ hc,
        zero_toRat _ (cube_pos _ hc)]
    rw [show Frac.toRat ⟨(1 : Int), 0⟩ = 1 from by norm_num [Frac.toRat, Frac.den],
        show Frac.toRat ⟨(1 : Int), 1⟩ = 1 / 2 from by norm_num [Frac.toRat, Frac.den],
        show Frac.toRat ⟨(128 : Int), 0⟩ = 128 from by norm_num [Frac.toRat, Frac.den]]
    ring
  by_cases hv : 0 < v
  · rw [decide_eq_true (show 0 < v from hv)]
    rw [Frac.fltb_iff]
    rw [hval]
    rw [show Frac.toRat ⟨(v : Int), 0⟩ = (v : ℚ) from by norm_num [Frac.toRat, Frac.den]]
    have hvq : (0 : ℚ) < (v : ℚ) := by exact_mod_cast hv
    linarith
  · have hv0 : v = 0 := by omega
    subst hv0
    rw [decide_eq_false (by omega)]
    rw [Bool.eq_false_iff]
    intro hcontra
    rw [Frac.fltb_iff, hval] at hcontra
    rw [show Frac.toRat ⟨((0 : ℕ) : Int), 0⟩ = 0 from by norm_num [Frac.toRat, Frac.den]]
      at hcontra
    norm_num at hcontra

/-- C9: on a uniform-intensity input image (every pixel the same RGBA
value), the grayscale buffer is uniform, every local window's standard
deviation is exactly 0, and Niblack, Sauvola, NICK and T.R. Singh (default
parameters) each classify every pixel into one single class: each output is
all-0 or all-255, with no mixed pixels. -/
theorem c9_uniform_one_class (img : ImageDataIn) (r g b a : ℕ)
    (_hw : 1 ≤ img.width) (_hh : 1 ≤ img.height)
    (hdata : img.data = (List.replicate (img.width * img.height) [r, g, b, a]).flatten) :
    ∃ v : ℕ,
      toGrayscale img = List.replicate (img.width * img.height) v ∧
      (∀ x < img.width, ∀ y < img.height, ∃ sf : Frac,
        (calculateLocalStats (toGrayscale img) x y img.width img.height
          (windowSize img.width img.height)).stdDev = JSNum.num sf ∧ sf.toRat = 0) ∧
      niblackThreshold img ⟨-1, 4⟩ = allPix img.width img.height 0 ∧
      (sauvolaThreshold img ⟨1, 1⟩ = allPix img.width img.height 0 ∨
        sauvolaThreshold img ⟨1, 1⟩ = allPix img.width img.height 255) ∧
      (nickThreshold img ⟨-1, 4⟩ = allPix img.width img.height 0 ∨
        nickThreshold img ⟨-1, 4⟩ = allPix img.width img.height 255) ∧
      (trSinghThreshold img ⟨1, 1⟩ = allPix img.width img.height 0 ∨
        trSinghThreshold img ⟨1, 1⟩ = allPix img.width img.height 255) := by
  have hv := toGrayscale_uniform img r g b a hdata
  set v := clampRoundByte (JSNum.num
    (Frac.fadd
      (Frac.fadd (Frac.fmul ⟨299, 999⟩ ⟨(r : Int), 0⟩) (Frac.fmul ⟨587, 999⟩ ⟨(g : Int), 0⟩))
      (Frac.fmul ⟨114, 999⟩ ⟨(b : Int), 0⟩))) with hvdef
  refine ⟨v, hv, ?_, ?_, ?_, ?_, ?_⟩
  · intro x hx y hy
    obtain ⟨_, hc, hstats⟩ := uniform_pixel_facts (toGrayscale img) v img.width img.height
      (windowSize img.width img.height) x y hx hy hv
    rw [hstats]
    exact ⟨_, rfl, zero_toRat _ (cube_pos _ hc)⟩
  · show renderPixels img.width img.height
      (niblackDecision (toGrayscale img) img.width img.height ⟨-1, 4⟩) = _
    rw [renderPixels_const _ _ _ false
      (fun x hx y hy => niblack_uniform_decision _ v _ _ x y hx hy hv)]
    norm_num
  · by_cases h0 : 0 < v
    · right
      show renderPixels img.width img.height
        (sauvolaDecision (toGrayscale img) img.width img.height ⟨1, 1⟩) = _
      rw [renderPixels_const _ _ _ (decide (0 < v))
        (fun x hx y hy => sauvola_uniform_decision _ v _ _ x y hx hy hv),
        decide_eq_true (show 0 < v from h0)]
      norm_num
    · left
      show renderPixels img.width img.height
        (sauvolaDecision (toGrayscale img) img.width img.height ⟨1, 1⟩) = _
      rw [renderPixels_const _ _ _ (decide (0 < v))
        (fun x hx y hy => sauvola_uniform_decision _ v _ _ x y hx hy hv),
        decide_eq_false h0]
      norm_num
  · by_cases h0 : 0 < v
    · right
      show renderPixels img.width img.height
        (nickDecision (toGrayscale img) img.width img.height ⟨-1, 4⟩) = _
      rw [renderPixels_const _ _ _ (decide (0 < v))
        (fun x hx y hy => nick_uniform_decision _ v _ _ x y hx hy hv),
        decide_eq_true (show 0 < v from h0)]
      norm_num
    · left
      show renderPixels img.width img.height
        (nickDecision (toGrayscale img) img.width img.height ⟨-1, 4⟩) = _
      rw [renderPixels_const _ _ _ (decide (0 < v))
        (fun x hx y hy => nick_uniform_decision _ v _ _ x y hx hy hv),
        decide_eq_false h0]
      norm_num
  · by_cases h0 : 0 < v
    · right
      show renderPixels img.width img.height
        (trSinghDecision (toGrayscale img) img.width img.height ⟨1, 1⟩) = _
      rw [renderPixels_const _ _ _ (decide (0 < v))
        (fun x hx y hy => trsingh_uniform_decision _ v _ _ x y hx hy hv),
        decide_eq_true (show 0 < v from h0)]
      norm_num
    · left
      show renderPixels img.width img.height
        (trSinghDecision (toGrayscale img) img.width img.height ⟨1, 1⟩) = _
      rw [renderPixels_const _ _ _ (decide (0 < v))
        (fun x hx y hy => trsingh_uniform_decision _ v _ _ x y hx hy hv),
        decide_eq_false h0]
      norm_num

/-- C9 witness: a concrete uniform 2×2 image of intensity 10. -/
theorem c9_witness :
    1 ≤ (⟨2, 2, (List.replicate 4 [10, 10, 10, 255]).flatten⟩ : ImageDataIn).width ∧
    (⟨2, 2, (List.replicate 4 [10, 10, 10, 255]).flatten⟩ : ImageDataIn).data =
      (List.replicate (2 * 2) [10, 10, 10, 255]).flatten ∧
    (∃ v : ℕ,
      toGrayscale ⟨2, 2, (List.replicate 4 [10, 10, 10, 255]).flatten⟩ =
        List.replicate (2 * 2) v ∧
      (∀ x < 2, ∀ y < 2, ∃ sf : Frac,
        (calculateLocalStats (toGrayscale ⟨2, 2, (List.replicate 4 [10, 10, 10, 255]).flatten⟩)
          x y 2 2 (windowSize 2 2)).stdDev = JSNum.num sf ∧ sf.toRat = 0) ∧
      niblackThreshold ⟨2, 2, (List.replicate 4 [10, 10, 10, 255]).flatten⟩ ⟨-1, 4⟩ =
        allPix 2 2 0 ∧
      (sauvolaThreshold ⟨2, 2, (List.replicate 4 [10, 10, 10, 255]).flatten⟩ ⟨1, 1⟩ =
          allPix 2 2 0 ∨
        sauvolaThreshold ⟨2, 2, (List.replicate 4 [10, 10, 10, 255]).flatten⟩ ⟨1, 1⟩ =
          allPix 2 2 255) ∧
      (nickThreshold ⟨2, 2, (List.replicate 4 [10, 10, 10, 255]).flatten⟩ ⟨-1, 4⟩ =
          allPix 2 2 0 ∨
        nickThreshold ⟨2, 2, (List.replicate 4 [10, 10, 10, 255]).flatten⟩ ⟨-1, 4⟩ =
          allPix 2 2 255) ∧
      (trSinghThreshold ⟨2, 2, (List.replicate 4 [10, 10, 10, 255]).flatten⟩ ⟨1, 1⟩ =
          allPix 2 2 0 ∨
        trSinghThreshold ⟨2, 2, (List.replicate 4 [10, 10, 10, 255]).flatten⟩ ⟨1, 1⟩ =
          allPix 2 2 255)) :=
  ⟨by decide, by decide,
   c9_uniform_one_class ⟨2, 2, (List.replicate 4 [10, 10, 10, 255]).flatten⟩ 10 10 10 255
     (by decide) (by decide) (by decide)⟩

theorem foldl_pairwise {α : Type} (step : JSNum × JSNum → α → JSNum × JSNum)
    (F G : JSNum → α → JSNum)
    (hstep : ∀ p i, step p i = (F p.1 i, G p.2 i)) (l : List α) :
    ∀ p, l.foldl step p = (l.foldl F p.1, l.foldl G p.2) := by
  induction l with
  | nil => intro p; rfl
  | cons i l ih =>
    intro p
    rw [List.foldl_cons, hstep, ih, List.foldl_cons, List.foldl_cons]

/-- The pixel coordinates the two nested loops sweep, row by row. -/
def coords (w h : ℕ) : List (ℕ × ℕ) :=
  ((List.range h).map fun y => (List.range w).map fun x => (x, y)).flatten

theorem mem_coords (w h : ℕ) (c : ℕ × ℕ) :
    c ∈ coords w h ↔ c.1 < w ∧ c.2 < h := by
  unfold coords
  rw [List.mem_flatten]
  constructor
  · rintro ⟨row, hrow, hc⟩
    obtain ⟨y, hy, rfl⟩ := List.mem_map.mp hrow
    obtain ⟨x, hx, rfl⟩ := List.mem_map.mp hc
    rw [List.mem_range] at hy hx
    exact ⟨hx, hy⟩
  · rintro ⟨h1, h2⟩
    refine ⟨(List.range w).map fun x => (x, c.2), List.mem_map.mpr ⟨c.2, ?_, rfl⟩, ?_⟩
    · rw [List.mem_range]; exact h2
    · refine List.mem_map.mpr ⟨c.1, ?_, rfl⟩
      rw [List.mem_range]; exact h1

theorem foldl_coords {β : Type} (f : β → ℕ × ℕ → β) (a : β) (w h : ℕ) :
    (coords w h).foldl f a
      = (List.range h).foldl
          (fun m y => (List.range w).foldl (fun m x => f m (x, y)) m) a := by
  unfold coords
  rw [List.foldl_flatten]
  simp only [List.foldl_map]

/-- The two running extrema of Wolf's first pass, as independent folds over
the swept coordinates. -/
theorem wolfPre_eq (gray : List ℕ) (w h win : ℕ) :
    wolfPre gray w h win =
      ((coords w h).foldl (fun m c => JSNum.jmin m (byteGet gray (c.2 * w + c.1)))
         (JSNum.ofNat 255),
       (coords w h).foldl
         (fun m c => JSNum.jmax m ((calculateLocalStats gray c.1 c.2 w h win).stdDev))
         (JSNum.ofNat 0)) := by
  unfold wolfPre
  rw [foldl_pairwise _
    (fun m y => (List.range w).foldl (fun m x => JSNum.jmin m (byteGet gray (y * w + x))) m)
    (fun m y => (List.range w).foldl
      (fun m x => JSNum.jmax m ((calculateLocalStats gray x y w h win).stdDev)) m)
    (fun p y => foldl_pairwise _
      (fun m x => JSNum.jmin m (byteGet gray (y * w + x)))
      (fun m x => JSNum.jmax m ((calculateLocalStats gray x y w h win).stdDev))
      (fun q x => rfl) (List.range w) p)
    (List.range h)]
  rw [foldl_coords, foldl_coords]

/-- A fold of `Math.max` over `num`-valued terms starting from a `num` is a
`num` that bounds the start and every term from above. -/
theorem jmax_foldl {α : Type} (F : α → JSNum) :
    ∀ (l : List α), (∀ i ∈ l, ∃ s : Frac, F i = JSNum.num s) → ∀ a : Frac,
      ∃ M : Frac, l.foldl (fun m i => JSNum.jmax m (F i)) (JSNum.num a) = JSNum.num M ∧
        a.toRat ≤ M.toRat ∧ ∀ i ∈ l, ∀ s : Frac, F i = JSNum.num s → s.toRat ≤ M.toRat := by
  intro l
  induction l with
  | nil =>
    intro _ a
    exact ⟨a, rfl, le_refl _, by intro i hi; exact absurd hi (List.not_mem_nil i)⟩
  | cons i l ih =>
    intro hF a
    obtain ⟨s, hs⟩ := hF i (List.mem_cons_self i l)
    have hstep : ∀ a' : Frac, JSNum.jmax (JSNum.num a') (F i)
        = if Frac.fltb a' s then JSNum.num s else JSNum.num a' := by
      intro a'
      rw [hs]
      rfl
    by_cases hlt : Frac.fltb a s
    · obtain ⟨M, hM, haM, hall⟩ := ih (fun j hj => hF j (List.mem_cons_of_mem i hj)) s
      refine ⟨M, ?_, ?_, ?_⟩
      · rw [List.foldl_cons, hstep, if_pos hlt]
        exact hM
      · exact le_trans (le_of_lt ((Frac.fltb_iff a s).mp hlt)) haM
      · intro j hj s' hs'
        rcases List.mem_cons.mp hj with hj | hj
        · subst hj
          rw [hs] at hs'
          injection hs' with h'
          rw [← h']
          exact haM
        · exact hall j hj s' hs'
    · obtain ⟨M, hM, haM, hall⟩ := ih (fun j hj => hF j (List.mem_cons_of_mem i hj)) a
      refine ⟨M, ?_, ?_, ?_⟩
      · rw [List.foldl_cons, hstep, if_neg hlt]
        exact hM
      · exact haM
      · intro j hj s' hs'
        rcases List.mem_cons.mp hj with hj | hj
        · subst hj
          rw [hs] at hs'
          injection hs' with h'
          rw [← h']
          have : ¬ (a.toRat < s.toRat) := fun hc => hlt ((Frac.fltb_iff a s).mpr hc)
          exact le_trans (not_lt.mp this) haM
        · exact hall j hj s' hs'

theorem toRat_eq_zero_iff (f : Frac) : f.toRat = 0 ↔ f.n = 0 := by
  unfold Frac.toRat
  rw [div_eq_zero_iff]
  constructor
  · rintro (h | h)
    · exact_mod_cast h
    · exact absurd h f.den_cast_ne
  · intro h
    left
    exact_mod_cast h

theorem jdiv_zero_zero (a b : Frac) (ha : a.n = 0) (hb : b.n = 0) :
    JSNum.jdiv (JSNum.num a) (JSNum.num b) = JSNum.nan := by
  simp [JSNum.jdiv, ha, hb]

/-- C1 counterexample: on a flat (all-black) 1×1 image, the pre-pass
maxStdDev is the number 0, yet Wolf's per-pixel threshold evaluates to NaN
(the code computes `stdDev/maxStdDev = 0/0` unguarded), not the finite
value `mean - k*(1-0)*(mean-minVal) = 0` the claim asserts. -/
theorem c1_counterexample :
    (wolfPre (toGrayscale ⟨1, 1, [0, 0, 0, 255]⟩) 1 1 (windowSize 1 1)).2
      = JSNum.num ⟨0, 0⟩ ∧
    wolfThresholdAt (toGrayscale ⟨1, 1, [0, 0, 0, 255]⟩) 1 1 (windowSize 1 1) ⟨1, 1⟩
      (wolfPre (toGrayscale ⟨1, 1, [0, 0, 0, 255]⟩) 1 1 (windowSize 1 1)).1
      (wolfPre (toGrayscale ⟨1, 1, [0, 0, 0, 255]⟩) 1 1 (windowSize 1 1)).2 0 0
      = JSNum.nan ∧
    JSNum.nan ≠ JSNum.num ⟨0, 0⟩ := by
  refine ⟨by decide, by decide, by decide⟩

/-- C1 (amended): when the pre-pass maxStdDev is the number 0, every local
standard deviation is 0, the ratio `stdDev/maxStdDev` is `0/0 = NaN`, and
every per-pixel Wolf threshold is NaN — not a finite number.  Because the
comparison `pixel > NaN` is false, every pixel is nevertheless classified
as background, so the output is deterministically all-0 (no crash, no
spurious foreground). -/
theorem c1_wolf_nan_threshold (img : ImageDataIn) (k : Frac) (mf : Frac)
    (hmax : (wolfPre (toGrayscale img) img.width img.height
      (windowSize img.width img.height)).2 = JSNum.num mf)
    (hmf : mf.n = 0) :
    (∀ x < img.width, ∀ y < img.height,
      wolfThresholdAt (toGrayscale img) img.width img.height
        (windowSize img.width img.height) k
        (wolfPre (toGrayscale img) img.width img.height
          (windowSize img.width img.height)).1
        (wolfPre (toGrayscale img) img.width img.height
          (windowSize img.width img.height)).2 x y = JSNum.nan) ∧
    wolfThreshold img k = allPix img.width img.height 0 := by
  set gray := toGrayscale img with hgray
  set w := img.width
  set h := img.height
  set win := windowSize w h with hwin
  have hlen : gray.length = w * h := toGrayscale_length img
  have hstdnum : ∀ c ∈ coords w h, ∃ s : Frac,
      (calculateLocalStats gray c.1 c.2 w h win).stdDev = JSNum.num s := by
    intro c hc
    rw [mem_coords] at hc
    rw [calculateLocalStats_spec gray w h win c.1 c.2 hc.1 hc.2 hlen]
    exact ⟨_, rfl⟩
  obtain ⟨M, hMfold, _, hMall⟩ := jmax_foldl
    (fun c : ℕ × ℕ => (calculateLocalStats gray c.1 c.2 w h win).stdDev)
    (coords w h) hstdnum (Frac.ofNat 0)
  have hpre2 : (wolfPre gray w h win).2 = JSNum.num M := by
    rw [wolfPre_eq]
    exact hMfold
  have hMmf : M = mf := by
    have := hpre2.symm.trans hmax
    injection this
  have hthr : ∀ x < w, ∀ y < h,
      wolfThresholdAt gray w h win k (wolfPre gray w h win).1
        (wolfPre gray w h win).2 x y = JSNum.nan := by
    intro x hx y hy
    have hsd0 : (Frac.fsqrt ⟨varNum gray x y w h win,
        winCount x y w h win * winCount x y w h win * winCount x y w h win - 1⟩).n = 0 := by
      have hnum : (calculateLocalStats gray x y w h win).stdDev
          = JSNum.num (Frac.fsqrt ⟨varNum gray x y w h win,
            winCount x y w h win * winCount x y w h win * winCount x y w h win - 1⟩) := by
        rw [calculateLocalStats_spec gray w h win x y hx hy hlen]
      have hle := hMall (x, y) ((mem_coords w h (x, y)).mpr ⟨hx, hy⟩) _ hnum
      have hge : 0 ≤ (Frac.fsqrt ⟨varNum gray x y w h win,
          winCount x y w h win * winCount x y w h win * winCount x y w h win - 1⟩).toRat :=
        toRat_nonneg_of_n_nonneg _ (by unfold Frac.fsqrt; exact Int.natCast_nonneg _)
      have hM0 : M.toRat = 0 := by
        rw [hMmf]
        exact (toRat_eq_zero_iff mf).mpr hmf
      rw [hM0] at hle
      exact (toRat_eq_zero_iff _).mp (le_antisymm hle hge)
    unfold wolfThresholdAt
    dsimp only
    rw [calculateLocalStats_spec gray w h win x y hx hy hlen]
    dsimp only
    rw [hmax, jdiv_zero_zero _ _ hsd0 hmf, JSNum.jsub_nan_right, JSNum.jmul_nan_right,
        JSNum.jmul_nan_left, JSNum.jsub_nan_right]
  refine ⟨hthr, ?_⟩
  show renderPixels w h (wolfDecision gray w h win k
    (wolfPre gray w h win).1 (wolfPre gray w h win).2) = _
  rw [renderPixels_const _ _ _ false ?_]
  · norm_num
  · intro x hx y hy
    unfold wolfDecision
    rw [hthr x hx y hy, JSNum.jgtb_nan_right]

/-- C1 witness: the amended fact instantiated at the flat 1×1 image. -/
theorem c1_witness :
    (wolfPre (toGrayscale ⟨1, 1, [0, 0, 0, 255]⟩) 1 1 (windowSize 1 1)).2
        = JSNum.num ⟨0, 0⟩ ∧
    ((∀ x < 1, ∀ y < 1,
      wolfThresholdAt (toGrayscale ⟨1, 1, [0, 0, 0, 255]⟩) 1 1 (windowSize 1 1) ⟨1, 1⟩
        (wolfPre (toGrayscale ⟨1, 1, [0, 0, 0, 255]⟩) 1 1 (windowSize 1 1)).1
        (wolfPre (toGrayscale ⟨1, 1, [0, 0, 0, 255]⟩) 1 1 (windowSize 1 1)).2 x y
          = JSNum.nan) ∧
      wolfThreshold ⟨1, 1, [0, 0, 0, 255]⟩ ⟨1, 1⟩ = allPix 1 1 0) :=
  ⟨by decide, c1_wolf_nan_threshold ⟨1, 1, [0, 0, 0, 255]⟩ ⟨1, 1⟩ ⟨0, 0⟩ (by decide) (by decide)⟩

/-- The all-black 10×10 test image: every RGBA sample is 0. -/
def imgBlack10 : ImageDataIn := ⟨10, 10, List.replicate 400 0⟩

/-- C8: on the all-black 10×10 image every one of the eight algorithms
returns the all-0 output (every pixel `[0,0,0,255]`): the degenerate
statistics (Wolf's `maxStdDev = 0`, ISauvola's `globalStdDev = 0`) produce
NaN thresholds, and `0 > NaN` is false, so no pixel flips to 255. -/
theorem c8_all_black_outputs :
    otsuThreshold imgBlack10 = allPix 10 10 0 ∧
    niblackThreshold imgBlack10 ⟨-1, 4⟩ = allPix 10 10 0 ∧
    sauvolaThreshold imgBlack10 ⟨1, 1⟩ = allPix 10 10 0 ∧
    wolfThreshold imgBlack10 ⟨1, 1⟩ = allPix 10 10 0 ∧
    nickThreshold imgBlack10 ⟨-1, 4⟩ = allPix 10 10 0 ∧
    trSinghThreshold imgBlack10 ⟨1, 1⟩ = allPix 10 10 0 ∧
    iSauvolaThreshold imgBlack10 ⟨1, 1⟩ = allPix 10 10 0 ∧
    wanThreshold imgBlack10 ⟨1, 1⟩ = allPix 10 10 0 := by
  refine ⟨by decide, by decide, by decide, by decide, by decide, by decide, by decide, by decide⟩

/-- Background weight after Otsu's loop has processed bins `0..n-1`. -/
def wUpTo (hist : ℕ → ℕ) (n : ℕ) : ℕ := ((List.range n).map hist).sum

/-- Background weighted sum after Otsu's loop has processed bins `0..n-1`. -/
def sUpTo (hist : ℕ → ℕ) (n : ℕ) : ℕ := ((List.range n).map (fun t => t * hist t)).sum

theorem wUpTo_succ (hist : ℕ → ℕ) (n : ℕ) : wUpTo hist (n + 1) = wUpTo hist n + hist n := by
  unfold wUpTo
  rw [List.range_succ, List.map_append, List.sum_append]
  simp

theorem sUpTo_succ (hist : ℕ → ℕ) (n : ℕ) :
    sUpTo hist (n + 1) = sUpTo hist n + n * hist n := by
  unfold sUpTo
  rw [List.range_succ, List.map_append, List.sum_append]
  simp

theorem wUpTo_eq_sum (hist : ℕ → ℕ) (n : ℕ) : wUpTo hist n = ∑ i in Finset.range n, hist i := by
  induction n with
  | zero => rfl
  | succ m ih => rw [wUpTo_succ, Finset.sum_range_succ, ih]

theorem sUpTo_eq_sum (hist : ℕ → ℕ) (n : ℕ) :
    sUpTo hist n = ∑ i in Finset.range n, i * hist i := by
  induction n with
  | zero => rfl
  | succ m ih => rw [sUpTo_succ, Finset.sum_range_succ, ih]

theorem wUpTo_mono (hist : ℕ → ℕ) {a b : ℕ} (h : a ≤ b) : wUpTo hist a ≤ wUpTo hist b := by
  rw [wUpTo_eq_sum, wUpTo_eq_sum]
  exact Finset.sum_le_sum_of_subset (Finset.range_subset.mpr h)

/-- The compute branch of Otsu's loop runs at bin `t` iff both classes are
non-empty there (`wB > 0` and `wF > 0`). -/
def compAt (hist : ℕ → ℕ) (t : ℕ) : Prop :=
  0 < wUpTo hist (t + 1) ∧ wUpTo hist (t + 1) < wUpTo hist 256

instance compAt_decidable (hist : ℕ → ℕ) (t : ℕ) : Decidable (compAt hist t) :=
  inferInstanceAs (Decidable (_ ∧ _))

/-- The between-class variance `wB*wF*(mB-mF)²` Otsu's loop evaluates at
bin `t`, as an exact rational. -/
def varAt (hist : ℕ → ℕ) (t : ℕ) : ℚ :=
  ((wUpTo hist (t + 1) : ℚ) * ((wUpTo hist 256 : ℚ) - (wUpTo hist (t + 1) : ℚ)))
    * (((sUpTo hist (t + 1) : ℚ) / (wUpTo hist (t + 1) : ℚ)
        - ((sUpTo hist 256 : ℚ) - (sUpTo hist (t + 1) : ℚ))
          / ((wUpTo hist 256 : ℚ) - (wUpTo hist (t + 1) : ℚ)))
      * ((sUpTo hist (t + 1) : ℚ) / (wUpTo hist (t + 1) : ℚ)
        - ((sUpTo hist 256 : ℚ) - (sUpTo hist (t + 1) : ℚ))
          / ((wUpTo hist 256 : ℚ) - (wUpTo hist (t + 1) : ℚ))))

theorem sUpTo_le (hist : ℕ → ℕ) (t : ℕ) : sUpTo hist (t + 1) ≤ t * wUpTo hist (t + 1) := by
  rw [sUpTo_eq_sum, wUpTo_eq_sum, Finset.mul_sum]
  apply Finset.sum_le_sum
  intro i hi
  rw [Finset.mem_range] at hi
  exact Nat.mul_le_mul_right _ (by omega)

theorem wUpTo_split (hist : ℕ → ℕ) (a b : ℕ) (h : a ≤ b) :
    wUpTo hist b = wUpTo hist a + ∑ i in Finset.Ico a b, hist i := by
  rw [wUpTo_eq_sum, wUpTo_eq_sum, Finset.range_eq_Ico,
      ← Finset.sum_Ico_consecutive _ (Nat.zero_le a) h]

theorem sUpTo_split (hist : ℕ → ℕ) (a b : ℕ) (h : a ≤ b) :
    sUpTo hist b = sUpTo hist a + ∑ i in Finset.Ico a b, i * hist i := by
  rw [sUpTo_eq_sum, sUpTo_eq_sum, Finset.range_eq_Ico,
      ← Finset.sum_Ico_consecutive _ (Nat.zero_le a) h]

theorem tail_bound (hist : ℕ → ℕ) (t : ℕ) :
    (t + 1) * (∑ i in Finset.Ico (t + 1) 256, hist i)
      ≤ ∑ i in Finset.Ico (t + 1) 256, i * hist i := by
  rw [Finset.mul_sum]
  apply Finset.sum_le_sum
  intro i hi
  rw [Finset.mem_Ico] at hi
  exact Nat.mul_le_mul_right _ hi.1

/-- Whenever Otsu's compute branch runs, the evaluated between-class
variance is strictly positive: the background mean is at most `t` while the
foreground mean is at least `t+1`. -/
theorem varAt_pos (hist : ℕ → ℕ) (t : ℕ) (ht : t < 256) (hc : compAt hist t) :
    0 < varAt hist t := by
  obtain ⟨hW, hWT⟩ := hc
  unfold varAt
  set W : ℚ := (wUpTo hist (t + 1) : ℚ) with hWdef
  set T : ℚ := (wUpTo hist 256 : ℚ) with hTdef
  set S : ℚ := (sUpTo hist (t + 1) : ℚ) with hSdef
  set Sa : ℚ := (sUpTo hist 256 : ℚ) with hSadef
  have hWQ : 0 < W := by rw [hWdef]; exact_mod_cast hW
  have hFQ : 0 < T - W := by
    have h1 : W < T := by rw [hWdef, hTdef]; exact_mod_cast hWT
    linarith
  have hmB : S / W ≤ (t : ℚ) := by
    rw [div_le_iff₀ hWQ]
    have h2 : S ≤ (t : ℚ) * W := by
      rw [hSdef, hWdef]
      exact_mod_cast sUpTo_le hist t
    linarith
  have hmF : (t : ℚ) + 1 ≤ (Sa - S) / (T - W) := by
    rw [le_div_iff₀ hFQ]
    have h1 : Sa - S = ((∑ i in Finset.Ico (t + 1) 256, i * hist i : ℕ) : ℚ) := by
      rw [hSadef, hSdef, sUpTo_split hist (t + 1) 256 (by omega)]
      push_cast
      ring
    have h2 : T - W = ((∑ i in Finset.Ico (t + 1) 256, hist i : ℕ) : ℚ) := by
      rw [hTdef, hWdef, wUpTo_split hist (t + 1) 256 (by omega)]
      push_cast
      ring
    rw [h1, h2]
    have h3 := tail_bound hist t
    have h4 : (((t + 1) * (∑ i in Finset.Ico (t + 1) 256, hist i) : ℕ) : ℚ)
        ≤ ((∑ i in Finset.Ico (t + 1) 256, i * hist i : ℕ) : ℚ) := by exact_mod_cast h3
    calc ((t : ℚ) + 1) * ((∑ i in Finset.Ico (t + 1) 256, hist i : ℕ) : ℚ)
        = (((t + 1) * (∑ i in Finset.Ico (t + 1) 256, hist i) : ℕ) : ℚ) := by push_cast; ring
      _ ≤ ((∑ i in Finset.Ico (t + 1) 256, i * hist i : ℕ) : ℚ) := h4
  have hdneg : S / W - (Sa - S) / (T - W) < 0 := by linarith
  exact mul_pos (mul_pos hWQ hFQ) (mul_pos_of_neg_of_neg hdneg hdneg)

/-- Invariant of Otsu's scan after processing bins `0..n-1`:
`done` records that the `wF == 0` break fired; while running, `wB`/`sumB`
track the prefix sums; `maxVar`/`thr` hold the maximum computed variance
and the FIRST bin attaining it (0/0 while nothing was computed). -/
def OtsuInv (hist : ℕ → ℕ) (n : ℕ) (s : OtsuState) : Prop :=
  (s.done = true ↔ ∃ t, t < n ∧ 0 < wUpTo hist (t + 1) ∧
      wUpTo hist 256 ≤ wUpTo hist (t + 1)) ∧
  (s.done = false → s.wB = wUpTo hist n ∧ s.sumB = sUpTo hist n) ∧
  ((∀ t, t < n → ¬ compAt hist t) → s.maxVar = Frac.ofNat 0 ∧ s.thr = 0) ∧
  ((∃ t, t < n ∧ compAt hist t) →
     compAt hist s.thr ∧ s.thr < n ∧ s.maxVar.toRat = varAt hist s.thr ∧
     (∀ t, t < n → compAt hist t → varAt hist t ≤ s.maxVar.toRat) ∧
     (∀ t, t < n → compAt hist t → varAt hist t = s.maxVar.toRat → s.thr ≤ t))

theorem otsuInv_init (hist : ℕ → ℕ) : OtsuInv hist 0 ⟨0, 0, Frac.ofNat 0, 0, false⟩ := by
  refine ⟨?_, ?_, ?_, ?_⟩
  · constructor
    · intro h
      simp at h
    · rintro ⟨t, ht, _⟩
      exact absurd ht (Nat.not_lt_zero t)
  · intro _
    exact ⟨rfl, rfl⟩
  · intro _
    exact ⟨rfl, rfl⟩
  · rintro ⟨t, ht, _⟩
    exact absurd ht (Nat.not_lt_zero t)

theorem otsuInv_step (hist : ℕ → ℕ) (n : ℕ) (hn : n < 256) (s : OtsuState)
    (hs : OtsuInv hist n s) :
    OtsuInv hist (n + 1) (otsuStep hist (wUpTo hist 256) (sUpTo hist 256) s n) := by
  obtain ⟨hdone, hwb, hempty, hfull⟩ := hs
  by_cases hd : s.done = true
  · -- the break fired earlier: the step is the identity
    have hstep : otsuStep hist (wUpTo hist 256) (sUpTo hist 256) s n = s := by
      unfold otsuStep
      rw [if_pos hd]
    rw [hstep]
    obtain ⟨t0, ht0n, ht0pos, ht0T⟩ := hdone.mp hd
    have hnocompn : ¬ compAt hist n := by
      intro hcn
      have hmono : wUpTo hist (t0 + 1) ≤ wUpTo hist (n + 1) := wUpTo_mono hist (by omega)
      have := hcn.2
      omega
    refine ⟨?_, ?_, ?_, ?_⟩
    · constructor
      · intro h
        obtain ⟨t, ht, h2⟩ := hdone.mp h
        exact ⟨t, by omega, h2⟩
      · intro _
        exact hd
    · intro hf
      rw [hf] at hd
      simp at hd
    · intro hall
      exact hempty (fun t ht => hall t (by omega))
    · rintro ⟨t, htn1, hct⟩
      have htn : t < n := by
        rcases Nat.lt_succ_iff_lt_or_eq.mp htn1 with h | h
        · exact h
        · exact absurd hct (h ▸ hnocompn)
      obtain ⟨hc1, hc2, hc3, hc4, hc5⟩ := hfull ⟨t, htn, hct⟩
      refine ⟨hc1, by omega, hc3, ?_, ?_⟩
      · intro u hu hcu
        have hun : u < n := by
          rcases Nat.lt_succ_iff_lt_or_eq.mp hu with h | h
          · exact h
          · exact absurd hcu (h ▸ hnocompn)
        exact hc4 u hun hcu
      · intro u hu hcu he
        have hun : u < n := by
          rcases Nat.lt_succ_iff_lt_or_eq.mp hu with h | h
          · exact h
          · exact absurd hcu (h ▸ hnocompn)
        exact hc5 u hun hcu he
  · -- still running
    have hdf : s.done = false := Bool.eq_false_iff.mpr hd
    obtain ⟨hwB, hsB⟩ := hwb hdf
    have hw1 : s.wB + hist n = wUpTo hist (n + 1) := by
      rw [hwB, wUpTo_succ]
    by_cases h0 : s.wB + hist n = 0
    · -- `continue` on wB == 0
      have hstep : otsuStep hist (wUpTo hist 256) (sUpTo hist 256) s n
          = { s with wB := s.wB + hist n } := by
        unfold otsuStep
        rw [if_neg hd]
        dsimp only
        rw [if_pos h0]
      rw [hstep]
      have hW0 : wUpTo hist (n + 1) = 0 := by omega
      refine ⟨?_, ?_, ?_, ?_⟩
      · constructor
        · intro h
          obtain ⟨t, ht, h2⟩ := hdone.mp h
          exact ⟨t, by omega, h2⟩
        · rintro ⟨t, ht1, htpos, htT⟩
          have htn : t < n := by
            rcases Nat.lt_succ_iff_lt_or_eq.mp ht1 with h | h
            · exact h
            · subst h
              omega
          exact hdone.mpr ⟨t, htn, htpos, htT⟩
      · intro _
        refine ⟨hw1, ?_⟩
        show s.sumB = sUpTo hist (n + 1)
        have hh0 : hist n = 0 := by omega
        rw [hsB, sUpTo_succ, hh0]
        ring
      · intro hall
        exact hempty (fun t ht => hall t (by omega))
      · rintro ⟨t, ht1, hct⟩
        have htn : t < n := by
          rcases Nat.lt_succ_iff_lt_or_eq.mp ht1 with h | h
          · exact h
          · subst h
            exact absurd hct.1 (by omega)
        obtain ⟨hc1, hc2, hc3, hc4, hc5⟩ := hfull ⟨t, htn, hct⟩
        refine ⟨hc1, show s.thr < n + 1 by omega, hc3, ?_, ?_⟩
        · intro u hu hcu
          have hun : u < n := by
            rcases Nat.lt_succ_iff_lt_or_eq.mp hu with h | h
            · exact h
            · subst h
              exact absurd hcu.1 (by omega)
          exact hc4 u hun hcu
        · intro u hu hcu he
          have hun : u < n := by
            rcases Nat.lt_succ_iff_lt_or_eq.mp hu with h | h
            · exact h
            · subst h
              exact absurd hcu.1 (by omega)
          exact hc5 u hun hcu he
    · have hWpos : 0 < wUpTo hist (n + 1) := by omega
      by_cases hwf : wUpTo hist 256 - (s.wB + hist n) = 0
      · -- the `break` fires at this bin
        have hstep : otsuStep hist (wUpTo hist 256) (sUpTo hist 256) s n
            = { s with wB := s.wB + hist n, done := true } := by
          unfold otsuStep
          rw [if_neg hd]
          dsimp only
          rw [if_neg h0, if_pos hwf]
        rw [hstep]
        have hTle : wUpTo hist 256 ≤ wUpTo hist (n + 1) := by omega
        have hnocompn : ¬ compAt hist n := fun hcn => absurd hcn.2 (by omega)
        refine ⟨?_, ?_, ?_, ?_⟩
        · constructor
          · intro _
            exact ⟨n, by omega, hWpos, hTle⟩
          · intro _
            rfl
        · intro hfalse
          simp at hfalse
        · intro hall
          exact hempty (fun t ht => hall t (by omega))
        · rintro ⟨t, ht1, hct⟩
          have htn : t < n := by
            rcases Nat.lt_succ_iff_lt_or_eq.mp ht1 with h | h
            · exact h
            · exact absurd hct (h ▸ hnocompn)
          obtain ⟨hc1, hc2, hc3, hc4, hc5⟩ := hfull ⟨t, htn, hct⟩
          refine ⟨hc1, show s.thr < n + 1 by omega, hc3, ?_, ?_⟩
          · intro u hu hcu
            have hun : u < n := by
              rcases Nat.lt_succ_iff_lt_or_eq.mp hu with h | h
              · exact h
              · exact absurd hcu (h ▸ hnocompn)
            exact hc4 u hun hcu
          · intro u hu hcu he
            have hun : u < n := by
              rcases Nat.lt_succ_iff_lt_or_eq.mp hu with h | h
              · exact h
              · exact absurd hcu (h ▸ hnocompn)
            exact hc5 u hun hcu he
      · -- the compute branch runs at this bin
        have hcompn : compAt hist n := ⟨hWpos, by omega⟩
        have hWltT : wUpTo hist (n + 1) < wUpTo hist 256 := by omega
        have hsum1 : s.sumB + n * hist n = sUpTo hist (n + 1) := by
          rw [hsB, sUpTo_succ]
        have hv : (Frac.fmul (Frac.fmul (Frac.fmul (Frac.ofNat (s.wB + hist n))
            (Frac.ofNat (wUpTo hist 256 - (s.wB + hist n))))
            (Frac.fsub
              (Frac.fdiv (Frac.ofNat (s.sumB + n * hist n)) (Frac.ofNat (s.wB + hist n)))
              (Frac.fdiv (Frac.ofInt ((sUpTo hist 256 : Int) - ((s.sumB + n * hist n : ℕ) : Int)))
                (Frac.ofNat (wUpTo hist 256 - (s.wB + hist n))))))
            (Frac.fsub
              (Frac.fdiv (Frac.ofNat (s.sumB + n * hist n)) (Frac.ofNat (s.wB + hist n)))
              (Frac.fdiv (Frac.ofInt ((sUpTo hist 256 : Int) - ((s.sumB + n * hist n : ℕ) : Int)))
                (Frac.ofNat (wUpTo hist 256 - (s.wB + hist n)))))).toRat = varAt hist n := by
          have hb1 : (Frac.ofNat (s.wB + hist n)).n ≠ 0 := by
            show ¬ ((s.wB + hist n : ℕ) : Int) = 0
            exact_mod_cast h0
          have hb2 : (Frac.ofNat (wUpTo hist 256 - (s.wB + hist n))).n ≠ 0 := by
            show ¬ ((wUpTo hist 256 - (s.wB + hist n) : ℕ) : Int) = 0
            exact_mod_cast hwf
          rw [Frac.toRat_fmul, Frac.toRat_fmul, Frac.toRat_fmul, Frac.toRat_fsub,
              Frac.toRat_fdiv _ _ hb1, Frac.toRat_fdiv _ _ hb2,
              Frac.toRat_ofNat, Frac.toRat_ofNat, Frac.toRat_ofNat, Frac.toRat_ofInt]
          unfold varAt
          rw [hw1, hsum1]
          have hcast : ((wUpTo hist 256 - wUpTo hist (n + 1) : ℕ) : ℚ)
              = (wUpTo hist 256 : ℚ) - (wUpTo hist (n + 1) : ℚ) := by
            rw [Nat.cast_sub (le_of_lt hWltT)]
          rw [hcast]
          push_cast
          ring
        have hvpos : 0 < varAt hist n := varAt_pos hist n hn hcompn
        by_cases hlt : Frac.fltb s.maxVar (Frac.fmul (Frac.fmul (Frac.fmul
            (Frac.ofNat (s.wB + hist n)) (Frac.ofNat (wUpTo hist 256 - (s.wB + hist n))))
            (Frac.fsub
              (Frac.fdiv (Frac.ofNat (s.sumB + n * hist n)) (Frac.ofNat (s.wB + hist n)))
              (Frac.fdiv (Frac.ofInt ((sUpTo hist 256 : Int) - ((s.sumB + n * hist n : ℕ) : Int)))
                (Frac.ofNat (wUpTo hist 256 - (s.wB + hist n))))))
            (Frac.fsub
              (Frac.fdiv (Frac.ofNat (s.sumB + n * hist n)) (Frac.ofNat (s.wB + hist n)))
              (Frac.fdiv (Frac.ofInt ((sUpTo hist 256 : Int) - ((s.sumB + n * hist n : ℕ) : Int)))
                (Frac.ofNat (wUpTo hist 256 - (s.wB + hist n)))))) = true
        · have hstep : otsuStep hist (wUpTo hist 256) (sUpTo hist 256) s n
              = ⟨s.sumB + n * hist n, s.wB + hist n,
                 Frac.fmul (Frac.fmul (Frac.fmul (Frac.ofNat (s.wB + hist n))
                   (Frac.ofNat (wUpTo hist 256 - (s.wB + hist n))))
                   (Frac.fsub
                     (Frac.fdiv (Frac.ofNat (s.sumB + n * hist n)) (Frac.ofNat (s.wB + hist n)))
                     (Frac.fdiv (Frac.ofInt ((sUpTo hist 256 : Int)
                         - ((s.sumB + n * hist n : ℕ) : Int)))
                       (Frac.ofNat (wUpTo hist 256 - (s.wB + hist n))))))
                   (Frac.fsub
                     (Frac.fdiv (Frac.ofNat (s.sumB + n * hist n)) (Frac.ofNat (s.wB + hist n)))
                     (Frac.fdiv (Frac.ofInt ((sUpTo hist 256 : Int)
                         - ((s.sumB + n * hist n : ℕ) : Int)))
                       (Frac.ofNat (wUpTo hist 256 - (s.wB + hist n))))),
                 n, false⟩ := by
            unfold otsuStep
            rw [if_neg hd]
            dsimp only
            rw [if_neg h0, if_neg hwf, if_pos hlt]
          rw [hstep]
          have hmaxlt : s.maxVar.toRat < varAt hist n := by
            rw [← hv]
            exact (Frac.fltb_iff _ _).mp hlt
          refine ⟨?_, ?_, ?_, ?_⟩
          · constructor
            · intro h
              simp at h
            · rintro ⟨t, ht1, htpos, htT⟩
              exfalso
              rcases Nat.lt_succ_iff_lt_or_eq.mp ht1 with h | h
              · have := hdone.mpr ⟨t, h, htpos, htT⟩
                rw [this] at hdf
                simp at hdf
              · subst h
                omega
          · intro _
            exact ⟨hw1, hsum1⟩
          · intro hall
            exact absurd hcompn (hall n (by omega))
          · intro _
            refine ⟨hcompn, show n < n + 1 by omega, hv, ?_, ?_⟩
            · intro u hu hcu
              rcases Nat.lt_succ_iff_lt_or_eq.mp hu with h | h
              · obtain ⟨_, _, _, hc4, _⟩ := hfull ⟨u, h, hcu⟩
                have := hc4 u h hcu
                rw [hv]
                linarith
              · subst h
                rw [hv]
            · intro u hu hcu he
              rcases Nat.lt_succ_iff_lt_or_eq.mp hu with h | h
              · exfalso
                obtain ⟨_, _, _, hc4, _⟩ := hfull ⟨u, h, hcu⟩
                have := hc4 u h hcu
                rw [hv] at he
                linarith [he ▸ hmaxlt]
              · show n ≤ u
                omega
        · have hstep : otsuStep hist (wUpTo hist 256) (sUpTo hist 256) s n
              = { s with sumB := s.sumB + n * hist n, wB := s.wB + hist n } := by
            unfold otsuStep
            rw [if_neg hd]
            dsimp only
            rw [if_neg h0, if_neg hwf, if_neg hlt]
          rw [hstep]
          have hvle : varAt hist n ≤ s.maxVar.toRat := by
            rw [← hv]
            by_contra hcon
            exact hlt ((Frac.fltb_iff _ _).mpr (by rw [hv]; rw [hv] at hcon; linarith))
          refine ⟨?_, ?_, ?_, ?_⟩
          · constructor
            · intro h
              have : s.done = true := h
              rw [this] at hdf
              simp at hdf
            · rintro ⟨t, ht1, htpos, htT⟩
              rcases Nat.lt_succ_iff_lt_or_eq.mp ht1 with h | h
              · exact hdone.mpr ⟨t, h, htpos, htT⟩
              · subst h
                exact absurd htT (by omega)
          · intro _
            exact ⟨hw1, hsum1⟩
          · intro hall
            exact absurd hcompn (hall n (by omega))
          · intro _
            by_cases hex : ∃ t, t < n ∧ compAt hist t
            · obtain ⟨hc1, hc2, hc3, hc4, hc5⟩ := hfull hex
              refine ⟨hc1, show s.thr < n + 1 by omega, hc3, ?_, ?_⟩
              · intro u hu hcu
                rcases Nat.lt_succ_iff_lt_or_eq.mp hu with h | h
                · exact hc4 u h hcu
                · subst h
                  exact hvle
              · intro u hu hcu he
                rcases Nat.lt_succ_iff_lt_or_eq.mp hu with h | h
                · exact hc5 u h hcu he
                · show s.thr ≤ u
                  omega
            · exfalso
              obtain ⟨hm0, _⟩ := hempty (fun t ht hcontra => hex ⟨t, ht, hcontra⟩)
              rw [hm0, Frac.toRat_ofNat] at hvle
              rw [Nat.cast_zero] at hvle
              linarith
  
theorem otsuInv_scan (hist : ℕ → ℕ) :
    OtsuInv hist 256 (otsuScan hist (wUpTo hist 256) (sUpTo hist 256)) := by
  unfold otsuScan
  have hgen : ∀ n ≤ 256, OtsuInv hist n
      ((List.range n).foldl (otsuStep hist (wUpTo hist 256) (sUpTo hist 256))
        ⟨0, 0, Frac.ofNat 0, 0, false⟩) := by
    intro n
    induction n with
    | zero => intro _; exact otsuInv_init hist
    | succ m ih =>
      intro hm
      rw [List.range_succ, List.foldl_append, List.foldl_cons, List.foldl_nil]
      exact otsuInv_step hist m (by omega) _ (ih (by omega))
  exact hgen 256 le_rfl

/-- C7: Otsu's 256-bin threshold search returns a bin attaining the maximal
between-class variance, and among all bins attaining that maximum it
returns the first (lowest) index. -/
theorem c7_otsu_first_max (hist : ℕ → ℕ) (t : ℕ) (ht : t < 256) (hc : compAt hist t)
    (hmax : ∀ u, u < 256 → compAt hist u → varAt hist u ≤ varAt hist t) :
    compAt hist ((otsuScan hist (wUpTo hist 256) (sUpTo hist 256)).thr) ∧
    varAt hist ((otsuScan hist (wUpTo hist 256) (sUpTo hist 256)).thr) = varAt hist t ∧
    (otsuScan hist (wUpTo hist 256) (sUpTo hist 256)).thr ≤ t := by
  obtain ⟨_, _, _, hfull⟩ := otsuInv_scan hist
  obtain ⟨hc1, hc2, hc3, hc4, hc5⟩ := hfull ⟨t, ht, hc⟩
  have hth : varAt hist ((otsuScan hist (wUpTo hist 256) (sUpTo hist 256)).thr)
      = varAt hist t := by
    apply le_antisymm
    · exact hmax _ hc2 hc1
    · rw [← hc3]
      exact hc4 t ht hc
  refine ⟨hc1, hth, hc5 t ht hc ?_⟩
  rw [hc3, hth]

/-- A synthetic histogram with two equal-maximal-variance bins: all mass
sits in bins 0 and 2, so thresholds 0 and 1 split it identically. -/
def otsuTieHist : ℕ → ℕ := fun u => if u = 0 then 1 else if u = 2 then 1 else 0

theorem otsuTieHist_wUpTo_freeze : ∀ m, 3 ≤ m → wUpTo otsuTieHist m = 2 := by
  intro m
  induction m with
  | zero => omega
  | succ k ih =>
    intro hk
    rcases Nat.lt_or_ge k 3 with h | h
    · have hk2 : k = 2 := by omega
      subst hk2
      decide
    · rw [wUpTo_succ, ih h]
      have hz : otsuTieHist k = 0 := by
        unfold otsuTieHist
        rw [if_neg (by omega), if_neg (by omega)]
      rw [hz]

theorem otsuTieHist_varAt_zero : varAt otsuTieHist 0 = 4 := by
  unfold varAt
  rw [show wUpTo otsuTieHist (0 + 1) = 1 from by decide,
      show sUpTo otsuTieHist (0 + 1) = 0 from by decide,
      otsuTieHist_wUpTo_freeze 256 (by omega),
      show sUpTo otsuTieHist 256 = sUpTo otsuTieHist 3 from ?_,
      show sUpTo otsuTieHist 3 = 2 from by decide]
  · norm_num
  · rw [sUpTo_split otsuTieHist 3 256 (by omega)]
    have hz : ∑ i in Finset.Ico 3 256, i * otsuTieHist i = 0 := by
      apply Finset.sum_eq_zero
      intro i hi
      rw [Finset.mem_Ico] at hi
      have : otsuTieHist i = 0 := by
        unfold otsuTieHist
        rw [if_neg (by omega), if_neg (by omega)]
      rw [this]
      ring
    rw [hz]
    ring

theorem otsuTieHist_varAt_one : varAt otsuTieHist 1 = 4 := by
  unfold varAt
  rw [show wUpTo otsuTieHist (1 + 1) = 1 from by decide,
      show sUpTo otsuTieHist (1 + 1) = 0 from by decide,
      otsuTieHist_wUpTo_freeze 256 (by omega),
      show sUpTo otsuTieHist 256 = sUpTo otsuTieHist 3 from ?_,
      show sUpTo otsuTieHist 3 = 2 from by decide]
  · norm_num
  · rw [sUpTo_split otsuTieHist 3 256 (by omega)]
    have hz : ∑ i in Finset.Ico 3 256, i * otsuTieHist i = 0 := by
      apply Finset.sum_eq_zero
      intro i hi
      rw [Finset.mem_Ico] at hi
      have : otsuTieHist i = 0 := by
        unfold otsuTieHist
        rw [if_neg (by omega), if_neg (by omega)]
      rw [this]
      ring
    rw [hz]
    ring

theorem otsuTieHist_max : ∀ u, u < 256 → compAt otsuTieHist u →
    varAt otsuTieHist u ≤ varAt otsuTieHist 1 := by
  intro u _ hcu
  rcases Nat.lt_or_ge u 2 with h | h
  · interval_cases u
    · rw [otsuTieHist_varAt_zero, otsuTieHist_varAt_one]
    · exact le_refl _
  · exfalso
    have h1 : wUpTo otsuTieHist (u + 1) = 2 := otsuTieHist_wUpTo_freeze (u + 1) (by omega)
    have h2 : wUpTo otsuTieHist 256 = 2 := otsuTieHist_wUpTo_freeze 256 (by omega)
    have := hcu.2
    omega

/-- C7 witness: on the tie histogram, bins 0 and 1 both attain the maximal
variance 4, and the scan selects the lower one. -/
theorem c7_witness :
    (1 : ℕ) < 256 ∧ compAt otsuTieHist 1 ∧
    varAt otsuTieHist 0 = varAt otsuTieHist 1 ∧
    (otsuScan otsuTieHist (wUpTo otsuTieHist 256) (sUpTo otsuTieHist 256)).thr = 0 ∧
    (compAt otsuTieHist
        ((otsuScan otsuTieHist (wUpTo otsuTieHist 256) (sUpTo otsuTieHist 256)).thr) ∧
      varAt otsuTieHist
        ((otsuScan otsuTieHist (wUpTo otsuTieHist 256) (sUpTo otsuTieHist 256)).thr)
        = varAt otsuTieHist 1 ∧
      (otsuScan otsuTieHist (wUpTo otsuTieHist 256) (sUpTo otsuTieHist 256)).thr ≤ 1) :=
  ⟨by decide, by decide,
   by rw [otsuTieHist_varAt_zero, otsuTieHist_varAt_one],
   by decide,
   c7_otsu_first_max otsuTieHist 1 (by decide) (by decide) otsuTieHist_max⟩
